import Mathlib

/-!
Verification of the Mongo-Copy collection-transfer engine.

This file shallowly embeds `src/copyService.js` (class `MongoCopyService`) and
the relevant slice of the CLI entry point (`main`).  Store handles, the file
system and the interactive prompt are modelled as explicit state and an
environment of oracles; every effectful driver call appends an `Event` to a
trace.  `JSON.stringify(batch, null, 2)` and `JSON.parse` are modelled by an
executable renderer/parser pair over a `Json` value type (numbers restricted
to integers, which is all the transfer engine itself ever constructs).

Conventions:
* documents are `Json` values (MongoDB documents are schema-less records);
* the file `{outputDir}/{name}.json` is keyed by the collection `name`, since
  the path is a pure function of the name;
* `db.collection(name)` performs no I/O in the MongoDB driver (it builds a
  client-side handle object), so it is not an observable event;
* spinner/logger output is not modelled (pure console text).
-/

/-! ## JSON values -/

/-- A JSON value.  Numbers are modelled as integers: `JSON.stringify` renders
the engine's documents, and integer documents are the ones this model
constructs; the parser is correspondingly integer-valued. -/
inductive Json where
  | null : Json
  | bool (b : Bool) : Json
  | num (n : Int) : Json
  | str (s : String) : Json
  | arr (elems : List Json) : Json
  | obj (fields : List (String × Json)) : Json

/-- Documents are JSON values. -/
abbrev Doc := Json

/-- The opening-brace character (written via its code point). -/
def lbChar : Char := '\x7b'

/-- The closing-brace character (written via its code point). -/
def rbChar : Char := '\x7d'

/-- Decimal digit character for `d < 10` (clamped at `'9'`). -/
def digitChar (d : Nat) : Char :=
  match d with
  | 0 => '0'
  | 1 => '1'
  | 2 => '2'
  | 3 => '3'
  | 4 => '4'
  | 5 => '5'
  | 6 => '6'
  | 7 => '7'
  | 8 => '8'
  | _ => '9'

/-- Lower-case hexadecimal digit character for `d < 16` (clamped at `'f'`). -/
def hexChar (d : Nat) : Char :=
  match d with
  | 0 => '0'
  | 1 => '1'
  | 2 => '2'
  | 3 => '3'
  | 4 => '4'
  | 5 => '5'
  | 6 => '6'
  | 7 => '7'
  | 8 => '8'
  | 9 => '9'
  | 10 => 'a'
  | 11 => 'b'
  | 12 => 'c'
  | 13 => 'd'
  | 14 => 'e'
  | _ => 'f'

/-- Decimal digits of `n`, most significant first; structural on the fuel so
that it reduces in the kernel.  Adequate fuel is `n + 1`. -/
def natDigitsF : Nat → Nat → List Char
  | 0, _ => []
  | fuel + 1, n =>
      if n < 10 then [digitChar n]
      else natDigitsF fuel (n / 10) ++ [digitChar (n % 10)]

/-- Decimal digits of a natural number, most significant first. -/
def natDigits (n : Nat) : List Char := natDigitsF (n + 1) n

/-- Decimal rendering of an integer, as JavaScript prints integral numbers. -/
def renderInt (n : Int) : List Char :=
  if n < 0 then '-' :: natDigits n.natAbs else natDigits n.toNat

/-- JSON string escaping of one character, as `JSON.stringify` performs it:
quote, backslash and the named control escapes, `\u00XX` for the remaining
control characters, everything else verbatim. -/
def escChar (c : Char) : List Char :=
  if c = '"' then ['\\', '"']
  else if c = '\\' then ['\\', '\\']
  else if c = '\n' then ['\\', 'n']
  else if c = '\t' then ['\\', 't']
  else if c = '\r' then ['\\', 'r']
  else if c = '\x08' then ['\\', 'b']
  else if c = '\x0c' then ['\\', 'f']
  else if c.toNat < 32 then
    ['\\', 'u', '0', '0', hexChar (c.toNat / 16), hexChar (c.toNat % 16)]
  else [c]

/-- Escape a whole character list. -/
def escList : List Char → List Char
  | [] => []
  | c :: cs => escChar c ++ escList cs

/-- Rendering of a JSON string literal, quotes included. -/
def renderString (s : String) : List Char := '"' :: (escList s.data ++ ['"'])

/-- Indentation for nesting level `lvl` under `JSON.stringify(_, null, 2)`:
two spaces per level. -/
def indChars (lvl : Nat) : List Char := List.replicate (2 * lvl) ' '

mutual

/-- Characters of `JSON.stringify(v, null, 2)` at nesting level `lvl`. -/
def renderV (lvl : Nat) : Json → List Char
  | .null => 'n' :: ['u', 'l', 'l']
  | .bool true => 't' :: ['r', 'u', 'e']
  | .bool false => 'f' :: ['a', 'l', 's', 'e']
  | .num n => renderInt n
  | .str s => renderString s
  | .arr [] => ['[', ']']
  | .arr (x :: xs) =>
      '[' :: '\n' :: (indChars (lvl + 1) ++ renderV (lvl + 1) x
        ++ renderItems (lvl + 1) xs ++ '\n' :: (indChars lvl ++ [']']))
  | .obj [] => [lbChar, rbChar]
  | .obj (kv :: kvs) =>
      lbChar :: '\n' :: (indChars (lvl + 1) ++ renderField (lvl + 1) kv
        ++ renderFields (lvl + 1) kvs ++ '\n' :: (indChars lvl ++ [rbChar]))

/-- Rendering of one object member, `"key": value`. -/
def renderField (lvl : Nat) : String × Json → List Char
  | (k, v) => renderString k ++ ':' :: ' ' :: renderV lvl v

/-- Rendering of the second and later array items, each preceded by `,\n`
and the level's indentation. -/
def renderItems (lvl : Nat) : List Json → List Char
  | [] => []
  | x :: xs => ',' :: '\n' :: (indChars lvl ++ renderV lvl x ++ renderItems lvl xs)

/-- Rendering of the second and later object members. -/
def renderFields (lvl : Nat) : List (String × Json) → List Char
  | [] => []
  | kv :: kvs => ',' :: '\n' :: (indChars lvl ++ renderField lvl kv ++ renderFields lvl kvs)

end

/-- Model of `JSON.stringify(v, null, 2)`. -/
def jsonStringify2 (v : Json) : String := String.mk (renderV 0 v)

/-! ## JSON parsing (model of `JSON.parse`) -/

/-- JSON insignificant whitespace. -/
def isWsChar (c : Char) : Bool := c = ' ' || c = '\n' || c = '\t' || c = '\r'

/-- Drop leading whitespace. -/
def skipWs : List Char → List Char
  | [] => []
  | c :: cs => if isWsChar c then skipWs cs else c :: cs

/-- Does the list consist of whitespace only? -/
def wsOnly (l : List Char) : Bool := l.all isWsChar

/-- Does the list avoid starting with a decimal digit?  (The one token whose
greedy lexing could swallow a following character.) -/
def noDigitHead : List Char → Bool
  | [] => true
  | c :: _ => !c.isDigit

/-- Numeric value of a hexadecimal digit character. -/
def hexVal (c : Char) : Option Nat :=
  if '0' ≤ c ∧ c ≤ '9' then some (c.toNat - 48)
  else if 'a' ≤ c ∧ c ≤ 'f' then some (c.toNat - 87)
  else if 'A' ≤ c ∧ c ≤ 'F' then some (c.toNat - 55)
  else none

/-- Prepend a character to the content part of a string-body parse result. -/
def consChar (c : Char) (o : Option (List Char × List Char)) :
    Option (List Char × List Char) :=
  o.map (fun r => (c :: r.1, r.2))

/-- Parse the body of a string literal, after the opening quote, returning the
unescaped content and the input after the closing quote. -/
def pStringBody : List Char → Option (List Char × List Char)
  | [] => none
  | c :: cs =>
    if c = '"' then some ([], cs)
    else if c = '\\' then
      match cs with
      | [] => none
      | e :: cs2 =>
        if e = '"' then consChar '"' (pStringBody cs2)
        else if e = '\\' then consChar '\\' (pStringBody cs2)
        else if e = '/' then consChar '/' (pStringBody cs2)
        else if e = 'n' then consChar '\n' (pStringBody cs2)
        else if e = 't' then consChar '\t' (pStringBody cs2)
        else if e = 'r' then consChar '\r' (pStringBody cs2)
        else if e = 'b' then consChar '\x08' (pStringBody cs2)
        else if e = 'f' then consChar '\x0c' (pStringBody cs2)
        else if e = 'u' then
          match cs2 with
          | h1 :: h2 :: h3 :: h4 :: cs3 =>
            match hexVal h1, hexVal h2, hexVal h3, hexVal h4 with
            | some a, some b, some c3, some d =>
                consChar (Char.ofNat (((a * 16 + b) * 16 + c3) * 16 + d)) (pStringBody cs3)
            | _, _, _, _ => none
          | _ => none
        else none
    else consChar c (pStringBody cs)
termination_by structural cs => cs

/-- Greedily take decimal digits from the front of the input. -/
def takeDigits : List Char → List Char × List Char
  | [] => ([], [])
  | c :: cs =>
      if c.isDigit then
        let r := takeDigits cs
        (c :: r.1, r.2)
      else ([], c :: cs)

/-- Value of a digit run, most significant first. -/
def digitsVal (ds : List Char) : Nat :=
  ds.foldl (fun a c => a * 10 + (c.toNat - 48)) 0

/-- Parse an integer numeral (optional minus sign, then digits). -/
def pNumber : List Char → Option (Int × List Char)
  | [] => none
  | c :: cs =>
      if c = '-' then
        match takeDigits cs with
        | ([], _) => none
        | (ds, rest) => some (-(digitsVal ds : Int), rest)
      else
        match takeDigits (c :: cs) with
        | ([], _) => none
        | (ds, rest) => some ((digitsVal ds : Int), rest)

/-- Parser mode: a full value, the tail of an array, or the tail of an
object.  A single mode-indexed function keeps the recursion structural on
the fuel, so the parser reduces in the kernel. -/
inductive PMode where
  | val : PMode
  | elems : PMode
  | fields : PMode

/-- Fuel-indexed JSON parser.  `val` parses one value; `elems` parses
comma-separated values up to the closing `]`, returning them as `.arr`;
`fields` parses comma-separated members up to the closing brace, returning
them as `.obj`.  Fuel `input.length + 1` always suffices (each recursive
call consumes at least one character). -/
def pRun : Nat → PMode → List Char → Option (Json × List Char)
  | 0, _, _ => none
  | fuel + 1, .val, cs =>
    match skipWs cs with
    | [] => none
    | c :: cs1 =>
      if c = '"' then (pStringBody cs1).map (fun r => (Json.str (String.mk r.1), r.2))
      else if c = '[' then
        match skipWs cs1 with
        | ']' :: r2 => some (Json.arr [], r2)
        | _ => pRun fuel .elems cs1
      else if c = lbChar then
        match skipWs cs1 with
        | [] => none
        | d :: r2 => if d = rbChar then some (Json.obj [], r2) else pRun fuel .fields cs1
      else if c = 't' then
        match cs1 with
        | 'r' :: 'u' :: 'e' :: r => some (Json.bool true, r)
        | _ => none
      else if c = 'f' then
        match cs1 with
        | 'a' :: 'l' :: 's' :: 'e' :: r => some (Json.bool false, r)
        | _ => none
      else if c = 'n' then
        match cs1 with
        | 'u' :: 'l' :: 'l' :: r => some (Json.null, r)
        | _ => none
      else (pNumber (c :: cs1)).map (fun r => (Json.num r.1, r.2))
  | fuel + 1, .elems, cs =>
    match pRun fuel .val cs with
    | none => none
    | some (v, r) =>
      match skipWs r with
      | ',' :: r2 =>
        match pRun fuel .elems r2 with
        | some (Json.arr vs, r3) => some (Json.arr (v :: vs), r3)
        | _ => none
      | ']' :: r2 => some (Json.arr [v], r2)
      | _ => none
  | fuel + 1, .fields, cs =>
    match skipWs cs with
    | [] => none
    | c :: cs1 =>
      if c = '"' then
        match pStringBody cs1 with
        | none => none
        | some (k, r) =>
          match skipWs r with
          | ':' :: r2 =>
            match pRun fuel .val r2 with
            | none => none
            | some (v, r3) =>
              match skipWs r3 with
              | [] => none
              | ',' :: r4 =>
                match pRun fuel .fields r4 with
                | some (Json.obj kvs, r5) => some (Json.obj ((String.mk k, v) :: kvs), r5)
                | _ => none
              | d :: r4 =>
                  if d = rbChar then some (Json.obj [(String.mk k, v)], r4) else none
          | _ => none
      else none

/-- Model of `JSON.parse`: parse one value and insist that nothing but
whitespace follows. -/
def jsonParse (s : String) : Option Json :=
  match pRun (s.length + 1) .val s.data with
  | some (v, rest) => if skipWs rest = [] then some v else none
  | none => none

/-! ## Events, environment and state of a job run -/

/-- Observable effects of a run, in program order.  Pure client-side handle
construction (`db.collection(name)`) and console output are not events. -/
inductive Event where
  | listCols : Event
  | countDocs (c : String) : Event
  | insertMany (c : String) (docs : List Doc) : Event
  | appendFile (c : String) (chunk : String) : Event
  | readFile (c : String) : Event
  | mkdirOut : Event
  | dryRunLog (c : String) : Event
  | close : Event

/-- The collection a trace event concerns, if any. -/
def Event.colName : Event → Option String
  | .countDocs c => some c
  | .insertMany c _ => some c
  | .appendFile c _ => some c
  | .readFile c => some c
  | .dryRunLog c => some c
  | _ => none

/-- Is this the connection-cleanup event? -/
def Event.isClose : Event → Bool
  | .close => true
  | _ => false

/-- Is this a destination-store write (`insertMany`)? -/
def Event.isDestWrite : Event → Bool
  | .insertMany _ _ => true
  | _ => false

/-- Is this a file-system effect (append, read, or directory creation)? -/
def Event.isFileTouch : Event → Bool
  | .appendFile _ _ => true
  | .readFile _ => true
  | .mkdirOut => true
  | _ => false

/-- Is this a read of the source store (`countDocuments`)? -/
def Event.isSourceCount : Event → Bool
  | .countDocs _ => true
  | _ => false

/-- Is this a file append (`fs.appendFileSync`)? -/
def Event.isAppendFile : Event → Bool
  | .appendFile _ _ => true
  | _ => false

/-- Is this a file read (`fs.readFileSync`)? -/
def Event.isReadFile : Event → Bool
  | .readFile _ => true
  | _ => false

/-- Does this event concern collection `c`? -/
def Event.touches (c : String) (e : Event) : Bool :=
  match e.colName with
  | some c1 => c1 = c
  | none => false

/-- Errors the driver and file-system calls can raise. -/
inductive CopyErr where
  | listErr : CopyErr
  | countErr : CopyErr
  | cursorErr : CopyErr
  | insertErr : CopyErr
  | fileErr : CopyErr
  | parseErr : CopyErr
  | notArrayErr : CopyErr
deriving DecidableEq

/-- Environment of one job run: contents of the source store and of the
output directory, the prompt's answer, and failure oracles for each fallible
driver/file call.  `cursorFail c i` makes reading document `i` of collection
`c` throw; the batch-indexed oracles make the corresponding call of that
batch throw. -/
structure Env where
  srcNames : List String
  srcDocs : String → List Doc
  dest0 : List (String × List Doc)
  files0 : List (String × String)
  outDirExists0 : Bool
  confirmAnswer : Bool
  listFail : Bool
  countFail : String → Bool
  cursorFail : String → Nat → Bool
  insertFail : String → Nat → Bool
  appendFail : String → Nat → Bool
  readFail : String → Nat → Bool

/-- Mutable world state threaded through a run. -/
structure St where
  dest : List (String × List Doc)
  files : List (String × String)
  outDirExists : Bool
  trace : List Event

/-- Initial state of a run. -/
def initSt (env : Env) : St :=
  { dest := env.dest0, files := env.files0, outDirExists := env.outDirExists0, trace := [] }

/-- Append one event to the trace. -/
def pushEvent (e : Event) (st : St) : St := { st with trace := st.trace ++ [e] }

/-- Association-list lookup (string keys). -/
def alGet {α : Type} (l : List (String × α)) (k : String) : Option α :=
  match l with
  | [] => none
  | (k1, v) :: rest => if k1 = k then some v else alGet rest k

/-- Association-list update/insert. -/
def alSet {α : Type} (l : List (String × α)) (k : String) (v : α) :
    List (String × α) :=
  match l with
  | [] => [(k, v)]
  | (k1, v1) :: rest => if k1 = k then (k, v) :: rest else (k1, v1) :: alSet rest k v

/-! ## The service: constructor, enumeration, batching -/

/-- The `options` object accepted by the `MongoCopyService` constructor.
`none` stands for an absent (hence falsy) field; `some 0` models the falsy
numbers `0` and `NaN` for `batchSize`, and `some ""` the falsy empty string
for `outputDir`. -/
structure CopyOptions where
  collections : Option (List String) := none
  batchSize : Option Int := none
  dryRun : Bool := false
  yes : Bool := false
  exportJson : Bool := false
  importJson : Bool := false
  outputDir : Option String := none

/-- The constructed service: the fields of `MongoCopyService` its methods
read (the URIs live in the connection layer and carry no logic). -/
structure MongoCopyService where
  collections : List String
  batchSize : Int
  dryRun : Bool
  yes : Bool
  exportJson : Bool
  importJson : Bool
  outputDir : String

/-- The constructor: each field is `options.x || default`, so any falsy
value (absent, `0`, `""`) selects the default. -/
def MongoCopyService.make (options : CopyOptions) : MongoCopyService where
  collections := options.collections.getD []
  batchSize :=
    match options.batchSize with
    | none => 1000
    | some n => if n = 0 then 1000 else n
  dryRun := options.dryRun
  yes := options.yes
  exportJson := options.exportJson
  importJson := options.importJson
  outputDir :=
    match options.outputDir with
    | none => "./backup"
    | some s => if s = "" then "./backup" else s

/-- The pure core of `listCollections()`: with no requested names the plan is
the store's full list, otherwise the requested names filtered to those the
store actually has (`names.includes`), in requested order. -/
def listCollectionsResolve (requested actual : List String) : List String :=
  if requested.length = 0 then actual
  else requested.filter (fun c => actual.contains c)

/-- The cursor loop of `copyCollection`, fuel-indexed: while documents
remain, take up to `b` of them as one batch.  Fuel `docs.length` suffices
whenever `b ≥ 1` (the JavaScript loop does not terminate for `b ≤ 0`, which
the constructor's default rules out). -/
def readBatchesF (b : Nat) : Nat → List Doc → List (List Doc)
  | _, [] => []
  | 0, _ :: _ => []
  | fuel + 1, d :: ds => ((d :: ds).take b) :: readBatchesF b fuel ((d :: ds).drop b)

/-- The batches `copyCollection` pulls from a collection holding `docs`. -/
def readBatches (b : Nat) (docs : List Doc) : List (List Doc) :=
  readBatchesF b docs.length docs

/-! ## The sinks and the per-collection loop -/

/-- Model of `exportBatchToJson(batch, name)`: ensure the output directory
exists, then append `JSON.stringify(batch, null, 2)` to `{name}.json`. -/
def exportBatchToJson (env : Env) (name : String) (bIdx : Nat)
    (batch : List Doc) (st : St) : Except CopyErr Unit × St :=
  let st1 :=
    if st.outDirExists then st
    else { st with outDirExists := true, trace := st.trace ++ [Event.mkdirOut] }
  if env.appendFail name bIdx then (.error .fileErr, st1)
  else
    let chunk := jsonStringify2 (Json.arr batch)
    (.ok (),
      { st1 with
        files := alSet st1.files name ((alGet st1.files name).getD "" ++ chunk),
        trace := st1.trace ++ [Event.appendFile name chunk] })

/-- Model of `importBatchFromJson(name)`: if `{name}.json` is absent, warn
and succeed; otherwise read it, `JSON.parse` it (a parse failure or a
non-array document throws) and insert the whole parsed array into the
destination collection. -/
def importBatchFromJson (env : Env) (name : String) (bIdx : Nat) (st : St) :
    Except CopyErr Unit × St :=
  match alGet st.files name with
  | none => (.ok (), st)
  | some content =>
    if env.readFail name bIdx then (.error .fileErr, st)
    else
      let st1 := { st with trace := st.trace ++ [Event.readFile name] }
      match jsonParse content with
      | some (Json.arr docs) =>
          if env.insertFail name bIdx then (.error .insertErr, st1)
          else
            (.ok (),
              { st1 with
                dest := alSet st1.dest name ((alGet st1.dest name).getD [] ++ docs),
                trace := st1.trace ++ [Event.insertMany name docs] })
      | some _ => (.error .notArrayErr, st1)
      | none => (.error .parseErr, st1)

/-- The mode branch at the heart of the batch loop: `exportJson` first, then
`importJson`, else a live `insertMany` into the same-named destination
collection. -/
def writeBatch (env : Env) (svc : MongoCopyService) (name : String)
    (bIdx : Nat) (batch : List Doc) (st : St) : Except CopyErr Unit × St :=
  if svc.exportJson then exportBatchToJson env name bIdx batch st
  else if svc.importJson then importBatchFromJson env name bIdx st
  else
    if env.insertFail name bIdx then (.error .insertErr, st)
    else
      (.ok (),
        { st with
          dest := alSet st.dest name ((alGet st.dest name).getD [] ++ batch),
          trace := st.trace ++ [Event.insertMany name batch] })

/-- Process the batches of one collection in order: each iteration first
reads the batch's documents from the cursor (any failing read aborts before
the sink is invoked), then hands the batch to the active sink. -/
def procBatches (env : Env) (svc : MongoCopyService) (name : String) :
    List (List Doc) → Nat → Nat → St → Except CopyErr Unit × St
  | [], _, _, st => (.ok (), st)
  | batch :: rest, bIdx, dIdx, st =>
    if (List.range batch.length).any (fun i => env.cursorFail name (dIdx + i)) then
      (.error .cursorErr, st)
    else
      match writeBatch env svc name bIdx batch st with
      | (.ok _, st1) => procBatches env svc name rest (bIdx + 1) (dIdx + batch.length) st1
      | (.error e, st1) => (.error e, st1)

/-- Model of `copyCollection(sourceCol, destCol, name, spinner)`: count the
documents, then stream the collection batch by batch. -/
def copyCollection (env : Env) (svc : MongoCopyService) (name : String)
    (st : St) : Except CopyErr Unit × St :=
  if env.countFail name then (.error .countErr, st)
  else
    procBatches env svc name (readBatches svc.batchSize.toNat (env.srcDocs name)) 0 0
      (pushEvent (Event.countDocs name) st)

/-- The `for (const name of collections)` loop of `copyCollections`: obtain
the handles (pure), skip with a log line under `dryRun`, otherwise stream
the collection; the first error stops the loop. -/
def runPlan (env : Env) (svc : MongoCopyService) :
    List String → St → Except CopyErr Unit × St
  | [], st => (.ok (), st)
  | name :: rest, st =>
    if svc.dryRun then runPlan env svc rest (pushEvent (Event.dryRunLog name) st)
    else
      match copyCollection env svc name st with
      | (.ok _, st1) => runPlan env svc rest st1
      | (.error e, st1) => (.error e, st1)

/-- How one `copyCollections()` call ends.  `completed`, `cancelled` and
`failedRun` all resolve normally to the caller (the `catch` block logs the
error without rethrowing); `threw` propagates an exception raised before
the `try` block. -/
inductive RunResult where
  | completed : RunResult
  | cancelled : RunResult
  | failedRun (e : CopyErr) : RunResult
  | threw (e : CopyErr) : RunResult
deriving DecidableEq

/-- Model of `copyCollections()`.  Faithful control flow: the
`listCollections()` call and the confirmation prompt run before the
`try`/`finally`, so neither of those exit paths reaches `closeClients()`;
the loop body runs inside `try { … } catch { log } finally { closeClients }`. -/
def copyCollections (env : Env) (svc : MongoCopyService) (st : St) :
    RunResult × St :=
  if env.listFail then (.threw .listErr, st)
  else if !svc.yes && !env.confirmAnswer then (.cancelled, pushEvent Event.listCols st)
  else
    match runPlan env svc (listCollectionsResolve svc.collections env.srcNames)
        (pushEvent Event.listCols st) with
    | (.ok _, st2) => (.completed, pushEvent Event.close st2)
    | (.error e, st2) => (.failedRun e, pushEvent Event.close st2)

/-! ## The CLI entry point (`main` in `src/index.js`) -/

/-- The parsed command-line options `main` consumes (after
`normalizeCollections`). -/
structure CliOpts where
  all : Bool := false
  collections : List String := []
  dryRun : Bool := false
  batchSize : Option Int := none
  yes : Bool := false
  exportJson : Bool := false
  importJson : Bool := false
  outputDir : Option String := none

/-- How `main` classifies a run before any store or file I/O.  All I/O —
`initClients()` (the first connection), `copyCollections()` and
`closeClients()` — happens only in the `runJob` branch, after every one of
the earlier exits. -/
inductive MainStep where
  | missingEnv : MainStep
  | helpExit : MainStep
  | conflictExit : MainStep
  | cancelledExit : MainStep
  | runJob (svc : MongoCopyService) : MainStep

/-- The `--batch-size` resolution in `main`: a positive parsed flag wins,
else a finite `BATCH_SIZE` from the environment, else 1000. -/
def resolveBatchSize (flag : Option Int) (envBatch : Option Int) : Int :=
  match flag with
  | some n => if 0 < n then n else envBatch.getD 1000
  | none => envBatch.getD 1000

/-- Model of `main` up to the construction of the service: missing env vars,
the no-arguments help screen, the `--export-json`/`--import-json` conflict
and the declined prompt each exit before any I/O; otherwise a
`MongoCopyService` is constructed and the job runs. -/
def mainFlow (o : CliOpts) (envOk : Bool) (confirmAns : Bool)
    (envBatch : Option Int) : MainStep :=
  if !envOk then .missingEnv
  else if !o.all && o.collections.isEmpty && !o.exportJson && !o.importJson then .helpExit
  else if o.exportJson && o.importJson then .conflictExit
  else if !o.yes && !confirmAns then .cancelledExit
  else
    .runJob (MongoCopyService.make
      { collections := some o.collections,
        batchSize := some (resolveBatchSize o.batchSize envBatch),
        dryRun := o.dryRun,
        yes := o.yes,
        exportJson := o.exportJson,
        importJson := o.importJson,
        outputDir := some (o.outputDir.getD "./backup") })

/-! ## Concrete environments and services used to evaluate the model -/

/-- A benign environment: one source collection `users`, currently empty,
nothing fails, the prompt is answered yes. -/
def envBase : Env where
  srcNames := ["users"]
  srcDocs := fun _ => []
  dest0 := []
  files0 := []
  outDirExists0 := true
  confirmAnswer := true
  listFail := false
  countFail := fun _ => false
  cursorFail := fun _ _ => false
  insertFail := fun _ _ => false
  appendFail := fun _ _ => false
  readFail := fun _ _ => false

/-- Environment with collections `a` (one document) and `b`, where every
`insertMany` into `a` throws. -/
def envC2 : Env :=
  { envBase with
    srcNames := ["a", "b"],
    srcDocs := fun c => if c = "a" then [Json.num 1] else [],
    insertFail := fun c _ => c = "a" }

/-- Environment whose `users` collection holds two documents and whose
output directory already holds `users.json` containing `[5]`. -/
def envC7 : Env :=
  { envBase with
    srcDocs := fun c => if c = "users" then [Json.num 1, Json.num 2] else [],
    files0 := [("users", "[5]")] }

/-- Environment whose `users` collection holds a single document. -/
def envC8a : Env :=
  { envBase with
    srcDocs := fun c => if c = "users" then [Json.num 3] else [] }

/-- Environment whose `users` collection holds two documents. -/
def envC8b : Env :=
  { envBase with
    srcDocs := fun c => if c = "users" then [Json.num 1, Json.num 2] else [] }

/-- Environment with an empty `users` collection but a non-empty
`users.json` already present in the output directory. -/
def envC9 : Env :=
  { envBase with files0 := [("users", "[5]")] }

/-- A service constructed with `--yes` only (live copy mode). -/
def svcYes : MongoCopyService := MongoCopyService.make { yes := true }

/-- A service constructed with no options at all. -/
def svcNoYes : MongoCopyService := MongoCopyService.make {}

/-- A dry-run service. -/
def svcDry : MongoCopyService := MongoCopyService.make { yes := true, dryRun := true }

/-- An import-mode service with batch size 1. -/
def svcImp : MongoCopyService :=
  MongoCopyService.make { yes := true, importJson := true, batchSize := some 1 }

/-- An export-mode service with the default batch size. -/
def svcExp : MongoCopyService := MongoCopyService.make { yes := true, exportJson := true }

/-- An export-mode service with batch size 1. -/
def svcExp1 : MongoCopyService :=
  MongoCopyService.make { yes := true, exportJson := true, batchSize := some 1 }

/-! ## Lemmas: whitespace and lexing -/

theorem skipWs_cons_not_ws {c : Char} (cs : List Char) (h : isWsChar c = false) :
    skipWs (c :: cs) = c :: cs := by
  simp [skipWs, h]

theorem skipWs_wsOnly_append (ws cs : List Char) (h : wsOnly ws = true) :
    skipWs (ws ++ cs) = skipWs cs := by
  induction ws with
  | nil => rfl
  | cons c t ih =>
      simp only [wsOnly, List.all_cons, Bool.and_eq_true] at h
      simp [skipWs, h.1, ih (by simp [wsOnly, h.2])]

theorem wsOnly_indChars (lvl : Nat) : wsOnly (indChars lvl) = true := by
  simp only [wsOnly, indChars, List.all_eq_true]
  intro c hc
  rw [List.eq_of_mem_replicate hc]
  rfl

theorem skipWs_indChars_append (lvl : Nat) (cs : List Char) :
    skipWs (indChars lvl ++ cs) = skipWs cs :=
  skipWs_wsOnly_append _ _ (wsOnly_indChars lvl)

theorem wsOnly_newline_ind (lvl : Nat) : wsOnly ('\n' :: indChars lvl) = true := by
  simp only [wsOnly, List.all_cons, Bool.and_eq_true]
  exact ⟨by decide, wsOnly_indChars lvl⟩

/-! ## Lemmas: decimal digits and numerals -/

theorem digitChar_spec (d : Nat) (h : d < 10) :
    (digitChar d).isDigit = true ∧ (digitChar d).toNat - 48 = d := by
  interval_cases d <;> exact ⟨by decide, by decide⟩

theorem digit_head_facts {c : Char} (h : c.isDigit = true) :
    isWsChar c = false ∧ c ≠ '-' ∧ c ≠ '"' ∧ c ≠ '[' ∧ c ≠ lbChar ∧
      c ≠ 't' ∧ c ≠ 'f' ∧ c ≠ 'n' ∧ c ≠ ']' ∧ c ≠ rbChar := by
  refine ⟨?_, ?_, ?_, ?_, ?_, ?_, ?_, ?_, ?_, ?_⟩
  · cases hc : isWsChar c with
    | false => rfl
    | true =>
        exfalso
        simp only [isWsChar, Bool.or_eq_true, decide_eq_true_eq] at hc
        rcases hc with ((h1 | h1) | h1) | h1 <;> (subst h1; revert h; decide)
  all_goals (intro hc; subst hc; revert h; decide)

theorem digitsVal_append_digit (ds : List Char) (d : Char) :
    digitsVal (ds ++ [d]) = digitsVal ds * 10 + (d.toNat - 48) := by
  simp [digitsVal, List.foldl_append]

theorem natDigitsF_spec :
    ∀ fuel n, n < fuel →
      natDigitsF fuel n ≠ [] ∧ (∀ c ∈ natDigitsF fuel n, c.isDigit = true) ∧
        digitsVal (natDigitsF fuel n) = n := by
  intro fuel
  induction fuel with
  | zero => intro n hn; omega
  | succ f ih =>
      intro n hn
      by_cases h10 : n < 10
      · refine ⟨by simp [natDigitsF, h10], ?_, ?_⟩
        · intro c hc
          simp only [natDigitsF, if_pos h10, List.mem_singleton] at hc
          subst hc
          exact (digitChar_spec n h10).1
        · simp [natDigitsF, h10, digitsVal, (digitChar_spec n h10).2]
      · have hdiv : n / 10 < f := by
          have h1 : n / 10 < n := Nat.div_lt_self (by omega) (by omega)
          omega
        obtain ⟨hne, hall, hval⟩ := ih (n / 10) hdiv
        have hmod : n % 10 < 10 := Nat.mod_lt _ (by omega)
        refine ⟨by simp [natDigitsF, h10], ?_, ?_⟩
        · intro c hc
          simp only [natDigitsF, if_neg h10, List.mem_append, List.mem_singleton] at hc
          rcases hc with hc | hc
          · exact hall c hc
          · subst hc; exact (digitChar_spec _ hmod).1
        · simp only [natDigitsF, if_neg h10, digitsVal_append_digit, hval,
            (digitChar_spec _ hmod).2]
          omega

theorem natDigits_spec (n : Nat) :
    natDigits n ≠ [] ∧ (∀ c ∈ natDigits n, c.isDigit = true) ∧
      digitsVal (natDigits n) = n :=
  natDigitsF_spec (n + 1) n (by omega)

theorem takeDigits_digits_append (ds rest : List Char)
    (hds : ∀ c ∈ ds, c.isDigit = true) (hr : noDigitHead rest = true) :
    takeDigits (ds ++ rest) = (ds, rest) := by
  induction ds with
  | nil =>
      cases rest with
      | nil => rfl
      | cons c t =>
          simp only [noDigitHead, Bool.not_eq_true'] at hr
          simp [takeDigits, hr]
  | cons c t ih =>
      have hc : c.isDigit = true := hds c (by simp)
      simp [takeDigits, hc, ih (fun x hx => hds x (by simp [hx]))]

theorem pNumber_renderInt (n : Int) (rest : List Char) (hr : noDigitHead rest = true) :
    pNumber (renderInt n ++ rest) = some (n, rest) := by
  by_cases hn : n < 0
  · obtain ⟨hne, hall, hval⟩ := natDigits_spec n.natAbs
    have htake := takeDigits_digits_append (natDigits n.natAbs) rest hall hr
    rw [renderInt, if_pos hn, List.cons_append]
    simp only [pNumber, htake, reduceIte]
    cases hdt : natDigits n.natAbs with
    | nil => exact absurd hdt hne
    | cons d t =>
        rw [← hdt, hval]
        simp only [Option.some.injEq, Prod.mk.injEq, and_true]
        omega
  · obtain ⟨hne, hall, hval⟩ := natDigits_spec n.toNat
    have htake := takeDigits_digits_append (natDigits n.toNat) rest hall hr
    rw [renderInt, if_neg hn]
    cases hdt : natDigits n.toNat with
    | nil => exact absurd hdt hne
    | cons d t =>
        have hd : d.isDigit = true := hall d (by rw [hdt]; simp)
        have hdm := digit_head_facts hd
        rw [hdt] at htake
        simp only [List.cons_append] at htake ⊢
        simp only [pNumber, if_neg hdm.2.1, htake]
        rw [← hdt] at htake ⊢
        rw [hval]
        simp only [Option.some.injEq, Prod.mk.injEq, and_true]
        omega

/-! ## Lemmas: string escaping round-trip -/

theorem hexVal_hexChar (d : Nat) (h : d < 16) : hexVal (hexChar d) = some d := by
  interval_cases d <;> decide

theorem pStringBody_escChar (c : Char) (rest : List Char) :
    pStringBody (escChar c ++ rest) = consChar c (pStringBody rest) := by
  by_cases h1 : c = '"'
  · subst h1
    simp only [escChar, reduceIte, List.cons_append, List.nil_append]
    rw [pStringBody.eq_def]
    simp
  by_cases h2 : c = '\\'
  · subst h2
    simp only [escChar, reduceIte, List.cons_append, List.nil_append]
    rw [pStringBody.eq_def]
    simp
  by_cases h3 : c = '\n'
  · subst h3
    simp only [escChar, reduceIte, List.cons_append, List.nil_append]
    rw [pStringBody.eq_def]
    simp
  by_cases h4 : c = '\t'
  · subst h4
    simp only [escChar, reduceIte, List.cons_append, List.nil_append]
    rw [pStringBody.eq_def]
    simp
  by_cases h5 : c = '\r'
  · subst h5
    simp only [escChar, reduceIte, List.cons_append, List.nil_append]
    rw [pStringBody.eq_def]
    simp
  by_cases h6 : c = '\x08'
  · subst h6
    simp only [escChar, reduceIte, List.cons_append, List.nil_append]
    rw [pStringBody.eq_def]
    simp
  by_cases h7 : c = '\x0c'
  · subst h7
    simp only [escChar, reduceIte, List.cons_append, List.nil_append]
    rw [pStringBody.eq_def]
    simp
  by_cases h8 : c.toNat < 32
  · have hhi : c.toNat / 16 < 16 := by omega
    have hlo : c.toNat % 16 < 16 := Nat.mod_lt _ (by omega)
    simp only [escChar, if_neg h1, if_neg h2, if_neg h3, if_neg h4, if_neg h5, if_neg h6,
      if_neg h7, if_pos h8, List.cons_append, List.nil_append]
    rw [pStringBody.eq_def]
    have h0 : hexVal '0' = some 0 := by decide
    simp [h0, hexVal_hexChar _ hhi, hexVal_hexChar _ hlo]
    have harith : c.toNat / 16 * 16 + c.toNat % 16 = c.toNat := by omega
    rw [harith, Char.ofNat_toNat]
  · simp only [escChar, if_neg h1, if_neg h2, if_neg h3, if_neg h4, if_neg h5, if_neg h6,
      if_neg h7, if_neg h8, List.cons_append, List.nil_append]
    rw [pStringBody.eq_def]
    simp [h1, h2]

theorem pStringBody_escList (cs rest : List Char) :
    pStringBody (escList cs ++ '"' :: rest) = some (cs, rest) := by
  induction cs with
  | nil =>
      rw [escList, List.nil_append, pStringBody.eq_def]
      simp
  | cons c t ih =>
      rw [escList, List.append_assoc, pStringBody_escChar, ih]
      rfl

/-! ## Lemmas: heads of rendered output -/

theorem renderInt_head (n : Int) :
    ∃ c0 t0, renderInt n = c0 :: t0 ∧ isWsChar c0 = false ∧ c0 ≠ '"' ∧ c0 ≠ '[' ∧
      c0 ≠ lbChar ∧ c0 ≠ 't' ∧ c0 ≠ 'f' ∧ c0 ≠ 'n' ∧ c0 ≠ ']' ∧ c0 ≠ rbChar := by
  by_cases hn : n < 0
  · exact ⟨'-', natDigits n.natAbs, by rw [renderInt, if_pos hn], by decide, by decide,
      by decide, by decide, by decide, by decide, by decide, by decide, by decide⟩
  · obtain ⟨hne, hall, _⟩ := natDigits_spec n.toNat
    cases hdt : natDigits n.toNat with
    | nil => exact absurd hdt hne
    | cons d t =>
        have hdm := digit_head_facts (hall d (by rw [hdt]; simp))
        exact ⟨d, t, by rw [renderInt, if_neg hn, hdt], hdm.1, hdm.2.2.1, hdm.2.2.2.1,
          hdm.2.2.2.2.1, hdm.2.2.2.2.2.1, hdm.2.2.2.2.2.2.1, hdm.2.2.2.2.2.2.2.1,
          hdm.2.2.2.2.2.2.2.2.1, hdm.2.2.2.2.2.2.2.2.2⟩

theorem renderV_head (lvl : Nat) (v : Json) :
    ∃ c t, renderV lvl v = c :: t ∧ isWsChar c = false ∧ c ≠ ']' ∧ c ≠ rbChar := by
  cases v with
  | null => exact ⟨'n', ['u', 'l', 'l'], by simp [renderV], by decide, by decide, by decide⟩
  | bool b =>
      cases b with
      | true =>
          exact ⟨'t', ['r', 'u', 'e'], by simp [renderV], by decide, by decide, by decide⟩
      | false =>
          exact ⟨'f', ['a', 'l', 's', 'e'], by simp [renderV], by decide, by decide, by decide⟩
  | num n =>
      obtain ⟨c0, t0, hct, hws, _, _, _, _, _, _, h8, h9⟩ := renderInt_head n
      exact ⟨c0, t0, by rw [renderV.eq_4, hct], hws, h8, h9⟩
  | str s =>
      exact ⟨'"', escList s.data ++ ['"'], by simp [renderV, renderString], by decide,
        by decide, by decide⟩
  | arr xs =>
      cases xs with
      | nil => exact ⟨'[', [']'], by simp [renderV], by decide, by decide, by decide⟩
      | cons x t =>
          exact ⟨'[', '\n' :: (indChars (lvl + 1) ++ (renderV (lvl + 1) x
              ++ (renderItems (lvl + 1) t ++ '\n' :: (indChars lvl ++ [']'])))),
            by simp [renderV], by decide, by decide, by decide⟩
  | obj kvs =>
      cases kvs with
      | nil => exact ⟨lbChar, [rbChar], by simp [renderV], by decide, by decide, by decide⟩
      | cons kv t =>
          exact ⟨lbChar, '\n' :: (indChars (lvl + 1) ++ (renderField (lvl + 1) kv
              ++ (renderFields (lvl + 1) t ++ '\n' :: (indChars lvl ++ [rbChar])))),
            by simp [renderV], by decide, by decide, by decide⟩

theorem renderV_ne_nil (lvl : Nat) (v : Json) : renderV lvl v ≠ [] := by
  obtain ⟨c, t, h, _, _, _⟩ := renderV_head lvl v
  simp [h]

theorem ws_not_digit {c : Char} (h : isWsChar c = true) : c.isDigit = false := by
  simp only [isWsChar, Bool.or_eq_true, decide_eq_true_eq] at h
  rcases h with ((h1 | h1) | h1) | h1 <;> (subst h1; decide)

theorem noDigitHead_of_skipWs {t : List Char} {c : Char} {r : List Char}
    (h : skipWs t = c :: r) (hc : c.isDigit = false) : noDigitHead t = true := by
  cases t with
  | nil => rfl
  | cons d t2 =>
      by_cases hd : isWsChar d = true
      · simp [noDigitHead, ws_not_digit hd]
      · rw [skipWs_cons_not_ws _ (by simpa using hd)] at h
        cases h
        simp [noDigitHead, hc]

/-! ## Lemmas: parser dispatch and whitespace insensitivity -/

theorem pRun_wsOnly_append (fuel : Nat) (m : PMode) (ws cs : List Char)
    (h : wsOnly ws = true) : pRun fuel m (ws ++ cs) = pRun fuel m cs := by
  induction fuel generalizing m with
  | zero => rfl
  | succ f ih =>
      cases m with
      | val => simp only [pRun, skipWs_wsOnly_append ws cs h]
      | elems => simp only [pRun, ih .val]
      | fields => simp only [pRun, skipWs_wsOnly_append ws cs h]

theorem pRun_val_openArr (fuel : Nat) (cs1 : List Char) (c0 : Char) (t0 : List Char)
    (h : skipWs cs1 = c0 :: t0) (hne : c0 ≠ ']') :
    pRun (fuel + 1) .val ('[' :: cs1) = pRun fuel .elems cs1 := by
  rw [pRun.eq_2, skipWs_cons_not_ws cs1 (by decide : isWsChar '[' = false)]
  simp only [reduceCtorEq, reduceIte, h]
  rw [if_neg (show ¬('[' : Char) = '"' by decide)]
  split
  · rename_i heq
    rw [List.cons.injEq] at heq
    exact (hne heq.1).elim
  · rfl

theorem pRun_val_openObj (fuel : Nat) (cs1 : List Char) (c0 : Char) (t0 : List Char)
    (h : skipWs cs1 = c0 :: t0) (hne : c0 ≠ rbChar) :
    pRun (fuel + 1) .val (lbChar :: cs1) = pRun fuel .fields cs1 := by
  rw [pRun.eq_2, skipWs_cons_not_ws cs1 (by decide : isWsChar lbChar = false)]
  simp only [reduceCtorEq, reduceIte, h]
  rw [if_neg (show ¬lbChar = '"' by decide), if_neg (show ¬lbChar = '[' by decide)]
  rw [if_neg hne]

theorem pRun_val_numInput (f : Nat) (c0 : Char) (t0 : List Char)
    (hws : isWsChar c0 = false) (h1 : c0 ≠ '"') (h2 : c0 ≠ '[') (h3 : c0 ≠ lbChar)
    (h4 : c0 ≠ 't') (h5 : c0 ≠ 'f') (h6 : c0 ≠ 'n') :
    pRun (f + 1) .val (c0 :: t0)
      = (pNumber (c0 :: t0)).map (fun r => (Json.num r.1, r.2)) := by
  rw [pRun.eq_2, skipWs_cons_not_ws t0 hws]
  simp only [if_neg h1, if_neg h2, if_neg h3, if_neg h4, if_neg h5, if_neg h6]

/-! ## Lemmas: the parser round-trips the renderer -/

theorem skipWs_close (lvl : Nat) (c : Char) (r : List Char) (hc : isWsChar c = false) :
    skipWs ('\n' :: (indChars lvl ++ (c :: r))) = c :: r := by
  rw [show ('\n' :: (indChars lvl ++ (c :: r))) = ('\n' :: indChars lvl) ++ (c :: r) by simp,
    skipWs_wsOnly_append _ _ (wsOnly_newline_ind lvl), skipWs_cons_not_ws _ hc]

theorem renderField_head (lvl : Nat) (kv : String × Json) :
    renderField lvl kv
      = '"' :: (escList kv.1.data ++ ('"' :: ':' :: ' ' :: renderV lvl kv.2)) := by
  obtain ⟨k, v⟩ := kv
  simp [renderField, renderString]

theorem pRun_elems_step (f : Nat) (cs : List Char) :
    pRun (f + 1) .elems cs
      = match pRun f .val cs with
        | none => none
        | some (v, r) =>
          match skipWs r with
          | ',' :: r2 =>
            (match pRun f .elems r2 with
             | some (Json.arr vs, r3) => some (Json.arr (v :: vs), r3)
             | _ => none)
          | ']' :: r2 => some (Json.arr [v], r2)
          | _ => none := rfl

theorem pRun_fields_step (f : Nat) (cs : List Char) :
    pRun (f + 1) .fields cs
      = match skipWs cs with
        | [] => none
        | c :: cs1 =>
          if c = '"' then
            match pStringBody cs1 with
            | none => none
            | some (k, r) =>
              match skipWs r with
              | ':' :: r2 =>
                match pRun f .val r2 with
                | none => none
                | some (v, r3) =>
                  match skipWs r3 with
                  | [] => none
                  | ',' :: r4 =>
                    (match pRun f .fields r4 with
                     | some (Json.obj kvs, r5) => some (Json.obj ((String.mk k, v) :: kvs), r5)
                     | _ => none)
                  | d :: r4 =>
                      if d = rbChar then some (Json.obj [(String.mk k, v)], r4) else none
              | _ => none
          else none := rfl

theorem pRun_val_strInput (f : Nat) (cs1 : List Char) :
    pRun (f + 1) .val ('"' :: cs1)
      = (pStringBody cs1).map (fun r => (Json.str (String.mk r.1), r.2)) := by
  rw [pRun.eq_2, skipWs_cons_not_ws cs1 (by decide : isWsChar '"' = false)]
  simp

theorem pRun_val_emptyArr (f : Nat) (rest : List Char) :
    pRun (f + 1) .val ('[' :: (']' :: rest)) = some (Json.arr [], rest) := by
  rw [pRun.eq_2, skipWs_cons_not_ws _ (by decide : isWsChar '[' = false)]
  simp [skipWs, isWsChar, lbChar, rbChar]

theorem pRun_val_emptyObj (f : Nat) (rest : List Char) :
    pRun (f + 1) .val (lbChar :: (rbChar :: rest)) = some (Json.obj [], rest) := by
  rw [pRun.eq_2, skipWs_cons_not_ws _ (by decide : isWsChar lbChar = false)]
  simp [skipWs, isWsChar, lbChar, rbChar]

mutual

theorem rt_val : ∀ (v : Json) (lvl fuel : Nat) (rest : List Char),
    (renderV lvl v).length < fuel → noDigitHead rest = true →
    pRun fuel .val (renderV lvl v ++ rest) = some (v, rest)
  | .null, lvl, fuel, rest, hf, _ => by
      rw [renderV.eq_1] at hf ⊢
      cases fuel with
      | zero => exact absurd hf (Nat.not_lt_zero _)
      | succ f =>
          rw [List.cons_append, pRun.eq_2]
          simp [skipWs, isWsChar, lbChar, rbChar]
  | .bool true, lvl, fuel, rest, hf, _ => by
      rw [renderV.eq_2] at hf ⊢
      cases fuel with
      | zero => exact absurd hf (Nat.not_lt_zero _)
      | succ f =>
          rw [List.cons_append, pRun.eq_2]
          simp [skipWs, isWsChar, lbChar, rbChar]
  | .bool false, lvl, fuel, rest, hf, _ => by
      rw [renderV.eq_3] at hf ⊢
      cases fuel with
      | zero => exact absurd hf (Nat.not_lt_zero _)
      | succ f =>
          rw [List.cons_append, pRun.eq_2]
          simp [skipWs, isWsChar, lbChar, rbChar]
  | .num n, lvl, fuel, rest, hf, hr => by
      rw [renderV.eq_4] at hf ⊢
      cases fuel with
      | zero => exact absurd hf (Nat.not_lt_zero _)
      | succ f =>
          obtain ⟨c0, t0, hct, hws, h1, h2, h3, h4, h5, h6, _, _⟩ := renderInt_head n
          rw [hct, List.cons_append, pRun_val_numInput f c0 _ hws h1 h2 h3 h4 h5 h6,
            ← List.cons_append, ← hct, pNumber_renderInt n rest hr]
          rfl
  | .str s, lvl, fuel, rest, hf, _ => by
      rw [renderV.eq_5] at hf ⊢
      cases fuel with
      | zero => exact absurd hf (Nat.not_lt_zero _)
      | succ f =>
          rw [renderString, List.cons_append, pRun_val_strInput f _,
            List.append_assoc, List.singleton_append, pStringBody_escList]
          rfl
  | .arr [], lvl, fuel, rest, hf, _ => by
      rw [renderV.eq_6] at hf ⊢
      cases fuel with
      | zero => exact absurd hf (Nat.not_lt_zero _)
      | succ f =>
          rw [show (['[', ']'] ++ rest) = '[' :: (']' :: rest) by simp,
            pRun_val_emptyArr f rest]
  | .arr (x :: xs), lvl, fuel, rest, hf, _ => by
      cases fuel with
      | zero => exact absurd hf (Nat.not_lt_zero _)
      | succ f =>
          rw [renderV.eq_7] at hf ⊢
          simp only [List.cons_append, List.append_assoc, List.singleton_append,
            List.nil_append] at hf ⊢
          obtain ⟨c0, t0, hct, hws0, hne0, _⟩ := renderV_head (lvl + 1) x
          have hskip : skipWs ('\n' :: (indChars (lvl + 1) ++ (renderV (lvl + 1) x
              ++ (renderItems (lvl + 1) xs ++ ('\n' :: (indChars lvl ++ (']' :: rest)))))))
              = c0 :: (t0 ++ (renderItems (lvl + 1) xs
                  ++ ('\n' :: (indChars lvl ++ (']' :: rest))))) := by
            rw [show ('\n' :: (indChars (lvl + 1) ++ (renderV (lvl + 1) x
                ++ (renderItems (lvl + 1) xs ++ ('\n' :: (indChars lvl ++ (']' :: rest)))))))
                = ('\n' :: indChars (lvl + 1)) ++ (renderV (lvl + 1) x
                    ++ (renderItems (lvl + 1) xs ++ ('\n' :: (indChars lvl ++ (']' :: rest)))))
              by simp, skipWs_wsOnly_append _ _ (wsOnly_newline_ind _), hct,
              List.cons_append, skipWs_cons_not_ws _ hws0]
          rw [pRun_val_openArr f _ c0 _ hskip hne0]
          have hfe : (renderV (lvl + 1) x).length + (renderItems (lvl + 1) xs).length + 1
              < f := by
            simp only [List.length_cons, List.length_append, indChars,
              List.length_replicate] at hf
            omega
          have htail : skipWs ('\n' :: (indChars lvl ++ (']' :: rest))) = ']' :: rest :=
            skipWs_close lvl ']' rest (by decide)
          have key := rt_elems x xs (lvl + 1) f ('\n' :: indChars (lvl + 1))
            ('\n' :: (indChars lvl ++ (']' :: rest))) rest (wsOnly_newline_ind _) htail hfe
          simp only [List.cons_append, List.append_assoc] at key
          exact key
  | .obj [], lvl, fuel, rest, hf, _ => by
      rw [renderV.eq_8] at hf ⊢
      cases fuel with
      | zero => exact absurd hf (Nat.not_lt_zero _)
      | succ f =>
          rw [show ([lbChar, rbChar] ++ rest) = lbChar :: (rbChar :: rest) by simp,
            pRun_val_emptyObj f rest]
  | .obj (kv :: kvs), lvl, fuel, rest, hf, _ => by
      cases fuel with
      | zero => exact absurd hf (Nat.not_lt_zero _)
      | succ f =>
          rw [renderV.eq_9] at hf ⊢
          simp only [List.cons_append, List.append_assoc, List.singleton_append,
            List.nil_append] at hf ⊢
          have hskip : skipWs ('\n' :: (indChars (lvl + 1) ++ (renderField (lvl + 1) kv
              ++ (renderFields (lvl + 1) kvs ++ ('\n' :: (indChars lvl ++ (rbChar :: rest)))))))
              = '"' :: ((escList kv.1.data ++ ('"' :: ':' :: ' ' :: renderV (lvl + 1) kv.2))
                  ++ (renderFields (lvl + 1) kvs
                      ++ ('\n' :: (indChars lvl ++ (rbChar :: rest))))) := by
            rw [show ('\n' :: (indChars (lvl + 1) ++ (renderField (lvl + 1) kv
                ++ (renderFields (lvl + 1) kvs ++ ('\n' :: (indChars lvl ++ (rbChar :: rest)))))))
                = ('\n' :: indChars (lvl + 1)) ++ (renderField (lvl + 1) kv
                    ++ (renderFields (lvl + 1) kvs ++ ('\n' :: (indChars lvl ++ (rbChar :: rest)))))
              by simp, skipWs_wsOnly_append _ _ (wsOnly_newline_ind _), renderField_head,
              List.cons_append, skipWs_cons_not_ws _ (by decide : isWsChar '"' = false)]
          rw [pRun_val_openObj f _ '"' _ hskip (by decide)]
          have hfe : (renderField (lvl + 1) kv).length + (renderFields (lvl + 1) kvs).length + 1
              < f := by
            simp only [List.length_cons, List.length_append, indChars,
              List.length_replicate] at hf
            omega
          have htail : skipWs ('\n' :: (indChars lvl ++ (rbChar :: rest))) = rbChar :: rest :=
            skipWs_close lvl rbChar rest (by decide)
          have key := rt_fields kv kvs (lvl + 1) f ('\n' :: indChars (lvl + 1))
            ('\n' :: (indChars lvl ++ (rbChar :: rest))) rest (wsOnly_newline_ind _) htail hfe
          simp only [List.cons_append, List.append_assoc] at key
          exact key
termination_by v _ _ _ _ _ => sizeOf v

theorem rt_elems : ∀ (x : Json) (xs : List Json) (lvl fuel : Nat) (ws tail rest : List Char),
    wsOnly ws = true → skipWs tail = ']' :: rest →
    (renderV lvl x).length + (renderItems lvl xs).length + 1 < fuel →
    pRun fuel .elems (ws ++ renderV lvl x ++ renderItems lvl xs ++ tail)
      = some (Json.arr (x :: xs), rest)
  | x, [], lvl, fuel, ws, tail, rest, hws, htail, hf => by
      cases fuel with
      | zero => exact absurd hf (Nat.not_lt_zero _)
      | succ f =>
          rw [renderItems.eq_1, List.append_nil, pRun_elems_step, List.append_assoc,
            pRun_wsOnly_append f .val ws _ hws]
          have hfx : (renderV lvl x).length < f := by
            rw [renderItems.eq_1] at hf
            simp only [List.length_nil] at hf
            omega
          have hnd : noDigitHead tail = true :=
            noDigitHead_of_skipWs htail (by decide)
          rw [rt_val x lvl f tail hfx hnd]
          simp [htail]
  | x, y :: ys, lvl, fuel, ws, tail, rest, hws, htail, hf => by
      cases fuel with
      | zero => exact absurd hf (Nat.not_lt_zero _)
      | succ f =>
          rw [pRun_elems_step,
            show ((ws ++ renderV lvl x) ++ renderItems lvl (y :: ys)) ++ tail
              = ws ++ (renderV lvl x ++ (renderItems lvl (y :: ys) ++ tail)) by simp,
            pRun_wsOnly_append f .val ws _ hws]
          have hfx : (renderV lvl x).length < f := by
            rw [renderItems.eq_2] at hf
            simp only [List.length_cons, List.length_append] at hf
            omega
          have hnd : noDigitHead (renderItems lvl (y :: ys) ++ tail) = true := by
            rw [renderItems.eq_2]
            rfl
          rw [rt_val x lvl f _ hfx hnd]
          have hskip2 : skipWs (renderItems lvl (y :: ys) ++ tail)
              = ',' :: ('\n' :: (indChars lvl
                  ++ (renderV lvl y ++ (renderItems lvl ys ++ tail)))) := by
            rw [renderItems.eq_2]
            simp only [List.cons_append, List.append_assoc]
            exact skipWs_cons_not_ws _ (by decide)
          have hfy : (renderV lvl y).length + (renderItems lvl ys).length + 1 < f := by
            rw [renderItems.eq_2] at hf
            simp only [List.length_cons, List.length_append] at hf
            omega
          have key := rt_elems y ys lvl f ('\n' :: indChars lvl) tail rest
            (wsOnly_newline_ind _) htail hfy
          simp only [List.cons_append, List.append_assoc] at key
          simp [hskip2, key]
termination_by x xs _ _ _ _ _ _ _ _ => sizeOf (x :: xs)

theorem rt_fields :
    ∀ (kv : String × Json) (kvs : List (String × Json)) (lvl fuel : Nat)
      (ws tail rest : List Char),
    wsOnly ws = true → skipWs tail = rbChar :: rest →
    (renderField lvl kv).length + (renderFields lvl kvs).length + 1 < fuel →
    pRun fuel .fields (ws ++ renderField lvl kv ++ renderFields lvl kvs ++ tail)
      = some (Json.obj (kv :: kvs), rest)
  | (k, v), [], lvl, fuel, ws, tail, rest, hws, htail, hf => by
      cases fuel with
      | zero => exact absurd hf (Nat.not_lt_zero _)
      | succ f =>
          rw [renderFields.eq_1, List.append_nil, pRun_fields_step]
          have hskip : skipWs ((ws ++ renderField lvl (k, v)) ++ tail)
              = '"' :: (escList k.data
                  ++ ('"' :: ':' :: ' ' :: (renderV lvl v ++ tail))) := by
            rw [List.append_assoc, skipWs_wsOnly_append _ _ hws, renderField_head,
              List.cons_append, skipWs_cons_not_ws _ (by decide : isWsChar '"' = false)]
            simp [List.append_assoc]
          rw [hskip,
            show (escList k.data ++ ('"' :: ':' :: ' ' :: (renderV lvl v ++ tail)))
              = escList k.data ++ '"' :: (':' :: ' ' :: (renderV lvl v ++ tail)) by simp]
          simp only [reduceIte, pStringBody_escList]
          rw [skipWs_cons_not_ws _ (by decide : isWsChar ':' = false)]
          have hfv : (renderV lvl v).length < f := by
            rw [renderField.eq_1] at hf
            simp only [renderFields.eq_1, List.length_nil, List.length_cons,
              List.length_append] at hf
            omega
          have hnd : noDigitHead tail = true :=
            noDigitHead_of_skipWs htail (by decide)
          have hpv : pRun f .val (' ' :: (renderV lvl v ++ tail)) = some (v, tail) := by
            rw [show (' ' :: (renderV lvl v ++ tail))
                = [' '] ++ (renderV lvl v ++ tail) by simp,
              pRun_wsOnly_append f .val [' '] _ (by decide), rt_val v lvl f tail hfv hnd]
          have hk : String.mk k.data = k := rfl
          simp [hpv, htail, hk, rbChar]
  | (k, v), kv2 :: kvs, lvl, fuel, ws, tail, rest, hws, htail, hf => by
      cases fuel with
      | zero => exact absurd hf (Nat.not_lt_zero _)
      | succ f =>
          rw [pRun_fields_step]
          have hskip : skipWs (((ws ++ renderField lvl (k, v))
                ++ renderFields lvl (kv2 :: kvs)) ++ tail)
              = '"' :: (escList k.data ++ ('"' :: ':' :: ' '
                  :: (renderV lvl v ++ (renderFields lvl (kv2 :: kvs) ++ tail)))) := by
            rw [List.append_assoc, List.append_assoc, skipWs_wsOnly_append _ _ hws,
              renderField_head, List.cons_append,
              skipWs_cons_not_ws _ (by decide : isWsChar '"' = false)]
            simp [List.append_assoc]
          rw [hskip,
            show (escList k.data ++ ('"' :: ':' :: ' '
                :: (renderV lvl v ++ (renderFields lvl (kv2 :: kvs) ++ tail))))
              = escList k.data ++ '"' :: (':' :: ' '
                  :: (renderV lvl v ++ (renderFields lvl (kv2 :: kvs) ++ tail))) by simp]
          simp only [reduceIte, pStringBody_escList]
          rw [skipWs_cons_not_ws _ (by decide : isWsChar ':' = false)]
          have hfv : (renderV lvl v).length < f := by
            rw [renderField.eq_1] at hf
            simp only [renderFields.eq_2, List.length_cons, List.length_append] at hf
            omega
          have hnd : noDigitHead (renderFields lvl (kv2 :: kvs) ++ tail) = true := by
            rw [renderFields.eq_2]
            rfl
          have hpv : pRun f .val (' ' :: (renderV lvl v
              ++ (renderFields lvl (kv2 :: kvs) ++ tail)))
              = some (v, renderFields lvl (kv2 :: kvs) ++ tail) := by
            rw [show (' ' :: (renderV lvl v ++ (renderFields lvl (kv2 :: kvs) ++ tail)))
                = [' '] ++ (renderV lvl v ++ (renderFields lvl (kv2 :: kvs) ++ tail)) by simp,
              pRun_wsOnly_append f .val [' '] _ (by decide), rt_val v lvl f _ hfv hnd]
          have hk : String.mk k.data = k := rfl
          have hskip2 : skipWs (renderFields lvl (kv2 :: kvs) ++ tail)
              = ',' :: ('\n' :: (indChars lvl
                  ++ (renderField lvl kv2 ++ (renderFields lvl kvs ++ tail)))) := by
            rw [renderFields.eq_2]
            simp only [List.cons_append, List.append_assoc]
            exact skipWs_cons_not_ws _ (by decide)
          have hff : (renderField lvl kv2).length + (renderFields lvl kvs).length + 1 < f := by
            rw [renderFields.eq_2] at hf
            simp only [List.length_cons, List.length_append] at hf
            omega
          have key := rt_fields kv2 kvs lvl f ('\n' :: indChars lvl) tail rest
            (wsOnly_newline_ind _) htail hff
          simp only [List.cons_append, List.append_assoc] at key
          simp [hpv, hskip2, key, hk]
termination_by kv kvs _ _ _ _ _ _ _ _ => sizeOf (kv :: kvs)

end

theorem jsonParse_stringify2 (v : Json) : jsonParse (jsonStringify2 v) = some v := by
  have h := rt_val v 0 ((renderV 0 v).length + 1) [] (by omega) rfl
  rw [List.append_nil] at h
  have hl : (jsonStringify2 v).length = (renderV 0 v).length := rfl
  have hd : (jsonStringify2 v).data = renderV 0 v := rfl
  rw [jsonParse, hl, hd, h]
  rfl

theorem renderV_arr_head (lvl : Nat) (l : List Json) :
    ∃ t, renderV lvl (Json.arr l) = '[' :: t := by
  cases l with
  | nil => exact ⟨[']'], by simp [renderV]⟩
  | cons x xs =>
      exact ⟨'\n' :: (indChars (lvl + 1) ++ (renderV (lvl + 1) x
          ++ (renderItems (lvl + 1) xs ++ '\n' :: (indChars lvl ++ [']'])))),
        by simp [renderV]⟩

theorem jsonParse_render_trailing_none (v : Json) (c : Char) (r : List Char)
    (hcw : isWsChar c = false) (hcd : c.isDigit = false) :
    jsonParse (String.mk (renderV 0 v ++ (c :: r))) = none := by
  have h := rt_val v 0 ((renderV 0 v ++ (c :: r)).length + 1) (c :: r)
    (by simp; omega) (by simp [noDigitHead, hcd])
  have hl : (String.mk (renderV 0 v ++ (c :: r))).length
      = (renderV 0 v ++ (c :: r)).length := rfl
  have hd : (String.mk (renderV 0 v ++ (c :: r))).data = renderV 0 v ++ (c :: r) := rfl
  rw [jsonParse, hl, hd, h]
  simp [skipWs_cons_not_ws _ hcw]

/-! ## Lemmas: batching -/

theorem getLast?_cons_of_ne_nil {α : Type} (a : α) {l : List α} (h : l ≠ []) :
    (a :: l).getLast? = l.getLast? := by
  cases l with
  | nil => exact absurd rfl h
  | cons b t => simp [List.getLast?]

theorem readBatchesF_spec (b : Nat) (hb : 0 < b) :
    ∀ fuel (docs : List Doc), docs.length ≤ fuel →
      (readBatchesF b fuel docs).length = (docs.length + b - 1) / b ∧
      (∀ batch ∈ readBatchesF b fuel docs, batch.length ≤ b) ∧
      (docs ≠ [] → (readBatchesF b fuel docs).getLast?.map List.length
          = some (if docs.length % b = 0 then b else docs.length % b)) ∧
      (readBatchesF b fuel docs).join = docs ∧
      [] ∉ readBatchesF b fuel docs := by
  intro fuel
  induction fuel with
  | zero =>
      intro docs hlen
      cases docs with
      | nil =>
          refine ⟨?_, by simp [readBatchesF], by simp, by simp [readBatchesF],
            by simp [readBatchesF]⟩
          have hz : (b - 1) / b = 0 := Nat.div_eq_of_lt (by omega)
          simp [readBatchesF, hz]
      | cons d ds => simp at hlen
  | succ f ih =>
      intro docs hlen
      cases docs with
      | nil =>
          refine ⟨?_, by simp [readBatchesF], by simp, by simp [readBatchesF],
            by simp [readBatchesF]⟩
          have hz : (b - 1) / b = 0 := Nat.div_eq_of_lt (by omega)
          simp [readBatchesF, hz]
      | cons d ds =>
          have hlen1 : ((d :: ds).drop b).length ≤ f := by
            simp only [List.length_drop, List.length_cons]
            simp only [List.length_cons] at hlen
            omega
          obtain ⟨ihlen, ihle, ihlast, ihjoin, ihnil⟩ := ih ((d :: ds).drop b) hlen1
          have hn : (d :: ds).length = ds.length + 1 := by simp
          have htake : ((d :: ds).take b).length = min b (ds.length + 1) := by
            simp [List.length_take]
          by_cases hble : ds.length + 1 ≤ b
          · have hdrop : (d :: ds).drop b = [] := by
              apply List.drop_eq_nil_of_le
              simp
              omega
            refine ⟨?_, ?_, ?_, ?_, ?_⟩
            · rw [readBatchesF, hdrop]
              simp only [readBatchesF, List.length_cons, List.length_nil]
              have h1 : (ds.length + 1 + b - 1) / b = 1 := by
                apply Nat.div_eq_of_lt_le <;> omega
              omega
            · intro batch hm
              rw [readBatchesF, hdrop] at hm
              simp only [readBatchesF, List.mem_singleton] at hm
              subst hm
              rw [htake]
              omega
            · intro _
              rw [readBatchesF, hdrop]
              simp only [readBatchesF, List.getLast?_singleton, Option.map_some', htake, hn]
              by_cases heq : ds.length + 1 = b
              · rw [heq]
                simp [Nat.mod_self]
              · have hlt : ds.length + 1 < b := by omega
                rw [Nat.mod_eq_of_lt hlt]
                simp only [Option.some.injEq]
                rw [if_neg (by omega)]
                omega
            · rw [readBatchesF, hdrop]
              show (List.take b (d :: ds) :: readBatchesF b f []).flatten = d :: ds
              rw [readBatchesF]
              simp only [List.flatten, List.append_nil]
              exact List.take_of_length_le (by simp; omega)
            · rw [readBatchesF, hdrop]
              simp only [readBatchesF, List.mem_singleton]
              intro hx
              cases b with
              | zero => omega
              | succ b1 => simp at hx
          · have hblt : b < ds.length + 1 := by omega
            have hdrop_len : ((d :: ds).drop b).length = ds.length + 1 - b := by
              simp
            have hdrop_ne : (d :: ds).drop b ≠ [] := by
              intro hx
              rw [hx] at hdrop_len
              simp at hdrop_len
              omega
            refine ⟨?_, ?_, ?_, ?_, ?_⟩
            · rw [readBatchesF]
              simp only [List.length_cons, ihlen, hdrop_len, hn]
              have h1 : ds.length + 1 - b + b - 1 = ds.length := by omega
              have h2 : ds.length + 1 + b - 1 = ds.length + b := by omega
              rw [h1, h2, Nat.add_div_right _ hb]
            · intro batch hm
              rw [readBatchesF] at hm
              simp only [List.mem_cons] at hm
              rcases hm with hm | hm
              · subst hm
                rw [htake]
                omega
              · exact ihle batch hm
            · intro _
              have hrb_ne : readBatchesF b f ((d :: ds).drop b) ≠ [] := by
                intro hx
                rw [hx] at ihjoin
                simp only [List.join] at ihjoin
                exact hdrop_ne ihjoin.symm
              rw [readBatchesF, getLast?_cons_of_ne_nil _ hrb_ne, ihlast hdrop_ne]
              rw [hdrop_len, hn]
              have : ds.length + 1 - b + b = ds.length + 1 := by omega
              rw [show ds.length + 1 - b = ds.length + 1 - b from rfl]
              congr 1
              have hmod : (ds.length + 1 - b) % b = (ds.length + 1) % b := by
                conv_rhs => rw [← this]
                rw [Nat.add_mod_right]
              rw [hmod]
            · rw [readBatchesF]
              show (List.take b (d :: ds) :: readBatchesF b f (List.drop b (d :: ds))).flatten
                = d :: ds
              rw [List.flatten_cons]
              have hj : (readBatchesF b f (List.drop b (d :: ds))).join
                  = List.drop b (d :: ds) := ihjoin
              rw [show (readBatchesF b f (List.drop b (d :: ds))).flatten
                  = (readBatchesF b f (List.drop b (d :: ds))).join from rfl, hj]
              exact List.take_append_drop b (d :: ds)
            · rw [readBatchesF]
              simp only [List.mem_cons]
              intro hx
              rcases hx with hx | hx
              · cases b with
                | zero => omega
                | succ b1 => simp at hx
              · exact ihnil hx

theorem readBatches_spec (b : Nat) (hb : 0 < b) (docs : List Doc) :
    (readBatches b docs).length = (docs.length + b - 1) / b ∧
    (∀ batch ∈ readBatches b docs, batch.length ≤ b) ∧
    (docs ≠ [] → (readBatches b docs).getLast?.map List.length
        = some (if docs.length % b = 0 then b else docs.length % b)) ∧
    (readBatches b docs).join = docs ∧
    [] ∉ readBatches b docs :=
  readBatchesF_spec b hb docs.length docs (by omega)

/-! ## Lemmas: association lists -/

theorem alGet_alSet_self {α : Type} (l : List (String × α)) (k : String) (v : α) :
    alGet (alSet l k v) k = some v := by
  induction l with
  | nil => simp [alSet, alGet]
  | cons p rest ih =>
      obtain ⟨k1, v1⟩ := p
      by_cases h : k1 = k
      · simp [alSet, alGet, h]
      · simp [alSet, alGet, h, ih]

theorem alGet_alSet_ne {α : Type} (l : List (String × α)) (k k' : String) (v : α)
    (h : k ≠ k') : alGet (alSet l k v) k' = alGet l k' := by
  induction l with
  | nil => simp [alSet, alGet, h]
  | cons p rest ih =>
      obtain ⟨k1, v1⟩ := p
      by_cases h1 : k1 = k
      · subst h1
        simp [alSet, alGet, h, ih]
      · simp [alSet, alGet, h1, ih]

/-! ## Lemmas: trace scoping of a run -/

theorem writeBatch_trace_mem (env : Env) (svc : MongoCopyService) (name : String)
    (bIdx : Nat) (batch : List Doc) (st : St) :
    ∀ e ∈ ((writeBatch env svc name bIdx batch st).2).trace,
      e ∈ st.trace ∨ Event.colName e = some name ∨ e = Event.mkdirOut := by
  intro e he
  dsimp only [writeBatch, exportBatchToJson, importBatchFromJson] at he
  repeat' split at he
  all_goals
    simp only [List.mem_append, List.mem_singleton, List.mem_cons, List.not_mem_nil,
      or_false] at he
  all_goals
    first
    | exact Or.inl he
    | (rcases he with he | he
       · exact Or.inl he
       · subst he
         simp [Event.colName])
    | (rcases he with (he | he) | he
       · exact Or.inl he
       · subst he
         simp [Event.colName]
       · subst he
         simp [Event.colName])

theorem procBatches_trace_mem (env : Env) (svc : MongoCopyService) (name : String) :
    ∀ (batches : List (List Doc)) (bIdx dIdx : Nat) (st : St),
      ∀ e ∈ ((procBatches env svc name batches bIdx dIdx st).2).trace,
        e ∈ st.trace ∨ Event.colName e = some name ∨ e = Event.mkdirOut := by
  intro batches
  induction batches with
  | nil =>
      intro bIdx dIdx st e he
      rw [procBatches] at he
      exact Or.inl he
  | cons batch rest ih =>
      intro bIdx dIdx st e he
      rw [procBatches] at he
      split at he
      · exact Or.inl he
      · split at he
        · rename_i val st1 heq
          rcases ih _ _ st1 e he with h | h
          · have hst1 : st1 = (writeBatch env svc name bIdx batch st).2 := by rw [heq]
            rw [hst1] at h
            exact writeBatch_trace_mem env svc name bIdx batch st e h
          · exact Or.inr h
        · rename_i err st1 heq
          have hst1 : st1 = (writeBatch env svc name bIdx batch st).2 := by rw [heq]
          rw [hst1] at he
          exact writeBatch_trace_mem env svc name bIdx batch st e he

theorem copyCollection_trace_mem (env : Env) (svc : MongoCopyService) (name : String)
    (st : St) :
    ∀ e ∈ ((copyCollection env svc name st).2).trace,
      e ∈ st.trace ∨ Event.colName e = some name ∨ e = Event.mkdirOut := by
  intro e he
  rw [copyCollection] at he
  split at he
  · exact Or.inl he
  · rcases procBatches_trace_mem env svc name _ 0 0 (pushEvent (Event.countDocs name) st)
        e he with h | h
    · simp only [pushEvent, List.mem_append, List.mem_singleton] at h
      rcases h with h | h
      · exact Or.inl h
      · subst h
        exact Or.inr (Or.inl rfl)
    · exact Or.inr h

theorem runPlan_trace_mem (env : Env) (svc : MongoCopyService) :
    ∀ (names : List String) (st : St),
      ∀ e ∈ ((runPlan env svc names st).2).trace,
        e ∈ st.trace ∨ (∃ n ∈ names, Event.colName e = some n) ∨ e = Event.mkdirOut := by
  intro names
  induction names with
  | nil =>
      intro st e he
      rw [runPlan] at he
      exact Or.inl he
  | cons n rest ih =>
      intro st e he
      rw [runPlan] at he
      split at he
      · rcases ih _ e he with h | h | h
        · simp only [pushEvent, List.mem_append, List.mem_singleton] at h
          rcases h with h | h
          · exact Or.inl h
          · subst h
            exact Or.inr (Or.inl ⟨n, by simp, rfl⟩)
        · obtain ⟨m, hm, hc⟩ := h
          exact Or.inr (Or.inl ⟨m, by simp [hm], hc⟩)
        · exact Or.inr (Or.inr h)
      · split at he
        · rename_i val st1 heq
          have hst1 : st1 = (copyCollection env svc n st).2 := by rw [heq]
          rcases ih _ e he with h | h | h
          · rw [hst1] at h
            rcases copyCollection_trace_mem env svc n st e h with h2 | h2 | h2
            · exact Or.inl h2
            · exact Or.inr (Or.inl ⟨n, by simp, h2⟩)
            · exact Or.inr (Or.inr h2)
          · obtain ⟨m, hm, hc⟩ := h
            exact Or.inr (Or.inl ⟨m, by simp [hm], hc⟩)
          · exact Or.inr (Or.inr h)
        · rename_i err st1 heq
          have hst1 : st1 = (copyCollection env svc n st).2 := by rw [heq]
          rw [hst1] at he
          rcases copyCollection_trace_mem env svc n st e he with h | h | h
          · exact Or.inl h
          · exact Or.inr (Or.inl ⟨n, by simp, h⟩)
          · exact Or.inr (Or.inr h)

/-! ## Lemmas: the per-collection loop -/

theorem runPlan_dryRun (env : Env) (svc : MongoCopyService) (h : svc.dryRun = true) :
    ∀ (names : List String) (st : St),
      runPlan env svc names st
        = (.ok (), { st with trace := st.trace ++ names.map Event.dryRunLog }) := by
  intro names
  induction names with
  | nil =>
      intro st
      rw [runPlan]
      simp
  | cons n rest ih =>
      intro st
      rw [runPlan, if_pos h, ih]
      simp [pushEvent]

theorem runPlan_append (env : Env) (svc : MongoCopyService) (l1 l2 : List String) :
    ∀ st, runPlan env svc (l1 ++ l2) st
      = match runPlan env svc l1 st with
        | (.ok _, st1) => runPlan env svc l2 st1
        | (.error e, st1) => (.error e, st1) := by
  induction l1 with
  | nil =>
      intro st
      rw [List.nil_append, runPlan]
  | cons n rest ih =>
      intro st
      rw [List.cons_append, runPlan]
      by_cases hd : svc.dryRun = true
      · rw [if_pos hd, ih]
        conv_rhs => rw [runPlan, if_pos hd]
      · rw [if_neg hd]
        conv_rhs => rw [runPlan, if_neg hd]
        cases hcc : copyCollection env svc n st with
        | mk r st1 =>
            cases r with
            | ok v => exact ih st1
            | error e => rfl

/-! ## Lemmas: the import sink re-reads the file once per batch -/

theorem procBatches_import (env : Env) (svc : MongoCopyService) (name : String)
    (himp : svc.importJson = true) (hexp : svc.exportJson = false)
    (content : String) (A : List Doc)
    (hparse : jsonParse content = some (Json.arr A))
    (hcur : ∀ i, env.cursorFail name i = false)
    (hread : ∀ i, env.readFail name i = false)
    (hins : ∀ i, env.insertFail name i = false) :
    ∀ (batches : List (List Doc)) (bIdx dIdx : Nat) (st : St),
      alGet st.files name = some content →
      ∃ st', procBatches env svc name batches bIdx dIdx st = (.ok (), st') ∧
        (alGet st'.dest name).getD []
          = (alGet st.dest name).getD [] ++ (List.replicate batches.length A).join ∧
        st'.files = st.files ∧
        st'.trace = st.trace
          ++ (List.replicate batches.length [Event.readFile name, Event.insertMany name A]).join := by
  intro batches
  induction batches with
  | nil =>
      intro bIdx dIdx st hfile
      refine ⟨st, by rw [procBatches], by simp, rfl, by simp⟩
  | cons batch rest ih =>
      intro bIdx dIdx st hfile
      have hwb : writeBatch env svc name bIdx batch st
          = (.ok (), { st with
              dest := alSet st.dest name ((alGet st.dest name).getD [] ++ A),
              trace := (st.trace ++ [Event.readFile name]) ++ [Event.insertMany name A] }) := by
        rw [writeBatch, if_neg (by simp [hexp]), if_pos himp, importBatchFromJson, hfile]
        simp [hread bIdx, hparse, hins bIdx]
      obtain ⟨st', hrun, hdest, hfiles, htrace⟩ := ih (bIdx + 1) (dIdx + batch.length)
        { st with
          dest := alSet st.dest name ((alGet st.dest name).getD [] ++ A),
          trace := (st.trace ++ [Event.readFile name]) ++ [Event.insertMany name A] }
        (by simpa using hfile)
      refine ⟨st', ?_, ?_, by simpa using hfiles, ?_⟩
      · rw [procBatches, if_neg (by simp [hcur]), hwb]
        exact hrun
      · rw [hdest]
        simp [alGet_alSet_self, List.replicate_succ]
      · rw [htrace]
        simp [List.replicate_succ]

/-! ## Lemmas: the export sink appends one chunk per batch -/

theorem stringFoldl_append (l : List String) :
    ∀ (a b : String),
      l.foldl (fun r s => r ++ s) (a ++ b) = a ++ l.foldl (fun r s => r ++ s) b := by
  induction l with
  | nil => intro a b; rfl
  | cons s t ih =>
      intro a b
      simp only [List.foldl_cons]
      rw [String.append_assoc, ih]

theorem stringJoin_cons (s : String) (l : List String) :
    String.join (s :: l) = s ++ String.join l := by
  have h := stringFoldl_append l s ""
  rw [String.append_empty] at h
  show List.foldl (fun r s => r ++ s) ("" ++ s) l = s ++ List.foldl (fun r s => r ++ s) "" l
  rw [String.empty_append, h]

theorem procBatches_export (env : Env) (svc : MongoCopyService) (name : String)
    (hexp : svc.exportJson = true)
    (hcur : ∀ i, env.cursorFail name i = false)
    (happ : ∀ i, env.appendFail name i = false) :
    ∀ (batches : List (List Doc)) (bIdx dIdx : Nat) (st : St),
      ∃ st', procBatches env svc name batches bIdx dIdx st = (.ok (), st') ∧
        (alGet st'.files name).getD ""
          = (alGet st.files name).getD ""
              ++ String.join (batches.map (fun batch => jsonStringify2 (Json.arr batch))) ∧
        st'.dest = st.dest ∧
        st'.trace.countP Event.isAppendFile
          = st.trace.countP Event.isAppendFile + batches.length ∧
        (∀ k', k' ≠ name → alGet st'.files k' = alGet st.files k') ∧
        ((∃ s, alGet st.files name = some s) → ∃ s', alGet st'.files name = some s') ∧
        (batches ≠ [] → ∃ s', alGet st'.files name = some s') := by
  intro batches
  induction batches with
  | nil =>
      intro bIdx dIdx st
      refine ⟨st, by rw [procBatches], by simp [String.join], rfl, by simp, fun _ _ => rfl,
        fun h => h, fun h => absurd rfl h⟩
  | cons batch rest ih =>
      intro bIdx dIdx st
      have hst1 :
          ∃ st1, exportBatchToJson env name bIdx batch st
            = (.ok (), st1) ∧
            st1.files = alSet st.files name
              ((alGet st.files name).getD "" ++ jsonStringify2 (Json.arr batch)) ∧
            st1.dest = st.dest ∧
            st1.trace.countP Event.isAppendFile
              = st.trace.countP Event.isAppendFile + 1 := by
        rw [exportBatchToJson]
        by_cases hdir : st.outDirExists = true
        · rw [if_pos hdir, if_neg (by simp [happ bIdx])]
          refine ⟨_, rfl, by simp, rfl, ?_⟩
          simp [List.countP_append, List.countP_cons, Event.isAppendFile, List.countP_nil]
        · rw [if_neg hdir, if_neg (by simp [happ bIdx])]
          refine ⟨_, rfl, by simp, rfl, ?_⟩
          simp [List.countP_append, List.countP_cons, Event.isAppendFile, List.countP_nil]
      obtain ⟨st1, hexp1, hfiles1, hdest1, hcount1⟩ := hst1
      obtain ⟨st', hrun, hget, hdest, hcount, hother, hkeep, hmk⟩ :=
        ih (bIdx + 1) (dIdx + batch.length) st1
      have hentry1 : ∃ s, alGet st1.files name = some s := by
        rw [hfiles1]
        exact ⟨_, alGet_alSet_self _ _ _⟩
      refine ⟨st', ?_, ?_, by rw [hdest, hdest1], ?_, ?_, fun _ => hkeep hentry1,
        fun _ => hkeep hentry1⟩
      · rw [procBatches, if_neg (by simp [hcur]), writeBatch, if_pos hexp, hexp1]
        exact hrun
      · rw [hget, hfiles1, alGet_alSet_self]
        simp only [List.map_cons, stringJoin_cons, String.append_assoc, Option.getD_some]
      · rw [hcount, hcount1]
        simp [List.length_cons]
        omega
      · intro k' hk'
        rw [hother k' hk', hfiles1, alGet_alSet_ne _ _ _ _ (fun h => hk' h.symm)]

/-! ## The claims -/

/-- Claim C3: for every requested-collection list R and actual-collection
list A returned by the source store, the resolved plan is A (in store order)
when R is empty, and otherwise the order-preserving intersection R ∩ A
(`R.filter (· ∈ A)`, a sublist of R); requested names absent from A are
silently dropped without error. -/
theorem C3_plan_is_ordered_intersection (R A : List String) :
    listCollectionsResolve R A
        = (if R = [] then A else R.filter (fun c => decide (c ∈ A))) ∧
    (R ≠ [] → (listCollectionsResolve R A).Sublist R) ∧
    (∀ c, c ∈ R → c ∉ A → c ∉ listCollectionsResolve R A) := by
  have hco : ∀ c : String, A.contains c = decide (c ∈ A) := by
    intro c
    by_cases h : c ∈ A <;> simp [h, List.elem_iff]
  refine ⟨?_, ?_, ?_⟩
  · rw [listCollectionsResolve]
    by_cases hR : R = []
    · simp [hR]
    · rw [if_neg (by simpa [List.length_eq_zero] using hR), if_neg hR]
      exact List.filter_congr (fun c _ => hco c)
  · intro hR
    rw [listCollectionsResolve, if_neg (by simpa [List.length_eq_zero] using hR)]
    exact List.filter_sublist R
  · intro c hcR hcA
    rw [listCollectionsResolve,
      if_neg (by simpa [List.length_eq_zero] using List.ne_nil_of_mem hcR)]
    intro hmem
    rw [List.mem_filter] at hmem
    rw [hco c] at hmem
    exact hcA (by simpa using hmem.2)

/-- Witness for C3 at the concrete request `["a", "x"]` against the store
list `["a", "b"]`: the plan keeps `"a"`, drops `"x"`, and is a sublist of
the request. -/
theorem C3_plan_is_ordered_intersection_witness :
    listCollectionsResolve ["a", "x"] ["a", "b"]
        = (if (["a", "x"] : List String) = [] then ["a", "b"]
           else ["a", "x"].filter (fun c => decide (c ∈ (["a", "b"] : List String)))) ∧
    (listCollectionsResolve ["a", "x"] ["a", "b"]).Sublist ["a", "x"] ∧
    "x" ∉ listCollectionsResolve ["a", "x"] ["a", "b"] :=
  ⟨(C3_plan_is_ordered_intersection ["a", "x"] ["a", "b"]).1,
   (C3_plan_is_ordered_intersection ["a", "x"] ["a", "b"]).2.1 (by decide),
   (C3_plan_is_ordered_intersection ["a", "x"] ["a", "b"]).2.2 "x" (by decide) (by decide)⟩

/-- Claim C4: with batch size b > 0, a collection of n documents is streamed
in ⌈n/b⌉ = (n + b - 1) / b batches, each of length at most b, the last of
length n mod b (or b when n mod b = 0 and n > 0); an empty collection yields
zero batches. -/
theorem C4_batch_count_and_sizes (b : Nat) (hb : 0 < b) (docs : List Doc) :
    (readBatches b docs).length = (docs.length + b - 1) / b ∧
    (∀ batch ∈ readBatches b docs, batch.length ≤ b) ∧
    (docs ≠ [] → (readBatches b docs).getLast?.map List.length
        = some (if docs.length % b = 0 then b else docs.length % b)) ∧
    (docs = [] → readBatches b docs = []) := by
  obtain ⟨h1, h2, h3, _, _⟩ := readBatches_spec b hb docs
  refine ⟨h1, h2, h3, fun h => ?_⟩
  subst h
  rfl

/-- Witness for C4: three documents at batch size 2 yield 2 batches, each of
length at most 2, the last of length 1 = 3 mod 2. -/
theorem C4_batch_count_and_sizes_witness :
    0 < 2 ∧
    (readBatches 2 [Json.num 1, Json.num 2, Json.num 3]).length = 2 ∧
    (∀ batch ∈ readBatches 2 [Json.num 1, Json.num 2, Json.num 3], batch.length ≤ 2) ∧
    (readBatches 2 [Json.num 1, Json.num 2, Json.num 3]).getLast?.map List.length
      = some 1 := by
  refine ⟨by decide, ?_, (C4_batch_count_and_sizes 2 (by decide) _).2.1, ?_⟩
  · rw [(C4_batch_count_and_sizes 2 (by decide) _).1]
    rfl
  · rw [(C4_batch_count_and_sizes 2 (by decide) _).2.2.1 (by simp)]
    rfl

/-- Claim C10 counterexample: the claim asserts every constructed service
has a strictly positive batch size, but constructing with `batchSize: -5`
(truthy in JavaScript, so `|| 1000` does not replace it) keeps the negative
value. -/
theorem C10_negative_batchSize_counterexample :
    (MongoCopyService.make { batchSize := some (-5) }).batchSize = -5 ∧
    ¬(0 < (MongoCopyService.make { batchSize := some (-5) }).batchSize) := by
  exact ⟨rfl, by decide⟩

/-- Claim C10 amended: a falsy batchSize option (absent, or the falsy
numbers modelled by `some 0`) silently becomes the default 1000; every
service constructed from a non-negative batchSize option therefore has a
strictly positive batch size, and with it the batch loop always makes
progress: the batches partition the documents exactly and no batch is
empty. -/
theorem C10_falsy_batchSize_defaults (o : CopyOptions) :
    ((o.batchSize = none ∨ o.batchSize = some 0) →
      (MongoCopyService.make o).batchSize = 1000) ∧
    ((∀ n, o.batchSize = some n → 0 ≤ n) →
      0 < (MongoCopyService.make o).batchSize ∧
      ∀ docs : List Doc,
        (readBatches (MongoCopyService.make o).batchSize.toNat docs).join = docs ∧
        [] ∉ readBatches (MongoCopyService.make o).batchSize.toNat docs) := by
  constructor
  · intro h
    rcases h with h | h <;> simp [MongoCopyService.make, h]
  · intro h
    have hpos : 0 < (MongoCopyService.make o).batchSize := by
      cases ho : o.batchSize with
      | none => simp [MongoCopyService.make, ho]
      | some n =>
          have hn0 := h n ho
          by_cases hn : n = 0
          · simp [MongoCopyService.make, ho, hn]
          · simp only [MongoCopyService.make, ho, if_neg hn]
            omega
    refine ⟨hpos, fun docs => ?_⟩
    have hb : 0 < (MongoCopyService.make o).batchSize.toNat := by omega
    obtain ⟨_, _, _, hj, hn⟩ := readBatches_spec _ hb docs
    exact ⟨hj, hn⟩

/-- Witness for the amended C10: `batchSize: 0` becomes 1000, and the loop
consumes a one-document collection completely. -/
theorem C10_falsy_batchSize_defaults_witness :
    (MongoCopyService.make { batchSize := some 0 }).batchSize = 1000 ∧
    (readBatches (MongoCopyService.make { batchSize := some 0 }).batchSize.toNat
        [Json.num 7]).join = [Json.num 7] :=
  ⟨(C10_falsy_batchSize_defaults { batchSize := some 0 }).1 (Or.inr rfl),
   (((C10_falsy_batchSize_defaults { batchSize := some 0 }).2
      (fun n hn => by simp at hn; omega)).2 [Json.num 7]).1⟩

/-- Claim C6: passing both --export-json and --import-json makes `main` exit
with a configuration error before any I/O: the conflict check precedes the
prompt, the service construction and `initClients`, all of which happen only
in the `runJob` branch; consequently the three sink modes are mutually
exclusive within any job that actually runs. -/
theorem C6_conflicting_modes_rejected (o : CliOpts) (envOk confirmAns : Bool)
    (envBatch : Option Int) (hx : o.exportJson = true) (hi : o.importJson = true) :
    (envOk = true → mainFlow o envOk confirmAns envBatch = .conflictExit) ∧
    (∀ svc, mainFlow o envOk confirmAns envBatch ≠ .runJob svc) ∧
    (∀ (o' : CliOpts) (envOk' confirmAns' : Bool) (envBatch' : Option Int)
        (svc : MongoCopyService),
      mainFlow o' envOk' confirmAns' envBatch' = .runJob svc →
      svc.exportJson = false ∨ svc.importJson = false) := by
  refine ⟨?_, ?_, ?_⟩
  · intro he
    rw [mainFlow, if_neg (by simp [he]), if_neg (by simp [hx]), if_pos (by simp [hx, hi])]
  · intro svc
    rw [mainFlow]
    by_cases he : envOk = true
    · rw [if_neg (by simp [he]), if_neg (by simp [hx]), if_pos (by simp [hx, hi])]
      simp
    · rw [if_pos (by simp only [Bool.not_eq_true] at he; simp [he])]
      simp
  · intro o' envOk' confirmAns' envBatch' svc h
    rw [mainFlow] at h
    split at h
    · exact MainStep.noConfusion h
    · split at h
      · exact MainStep.noConfusion h
      · split at h
        · exact MainStep.noConfusion h
        · split at h
          · exact MainStep.noConfusion h
          · rename_i h1 h2 h3 h4
            injection h with h
            subst h
            simp only [MongoCopyService.make]
            by_cases hex : o'.exportJson = true
            · by_cases him : o'.importJson = true
              · exact absurd (by simp [hex, him]) h3
              · exact Or.inr (by simpa using him)
            · exact Or.inl (by simpa using hex)

/-- Witness for C6: both flags set with the environment present exits with
the conflict error. -/
theorem C6_conflicting_modes_rejected_witness :
    mainFlow { exportJson := true, importJson := true, all := true } true true none
      = .conflictExit :=
  (C6_conflicting_modes_rejected
    { exportJson := true, importJson := true, all := true } true true none rfl rfl).1 rfl

/-- Claim C5: when dryRun is set the whole run is log-only: the destination
store receives zero write calls, no file is created or read, no operation is
performed on any collection handle (not even the `countDocuments` read), the
destination and file system are untouched, and — when enumeration succeeds
and the prompt is passed — the loop advances through every collection of the
plan in order and the job completes. -/
theorem C5_dryRun_is_log_only (env : Env) (svc : MongoCopyService)
    (hdry : svc.dryRun = true) :
    ((copyCollections env svc (initSt env)).2).dest = env.dest0 ∧
    ((copyCollections env svc (initSt env)).2).files = env.files0 ∧
    ((copyCollections env svc (initSt env)).2).trace.countP Event.isDestWrite = 0 ∧
    ((copyCollections env svc (initSt env)).2).trace.countP Event.isFileTouch = 0 ∧
    ((copyCollections env svc (initSt env)).2).trace.countP Event.isSourceCount = 0 ∧
    (env.listFail = false → (svc.yes = true ∨ env.confirmAnswer = true) →
      copyCollections env svc (initSt env)
        = (.completed,
           { dest := env.dest0, files := env.files0, outDirExists := env.outDirExists0,
             trace := Event.listCols
               :: ((listCollectionsResolve svc.collections env.srcNames).map Event.dryRunLog
                   ++ [Event.close]) })) := by
  by_cases hl : env.listFail = true
  · rw [copyCollections, if_pos hl]
    refine ⟨rfl, rfl, rfl, rfl, rfl, fun hfalse _ => ?_⟩
    rw [hl] at hfalse
    exact Bool.noConfusion hfalse
  · have hl' : env.listFail = false := by simpa using hl
    by_cases hc : (!svc.yes && !env.confirmAnswer) = true
    · rw [copyCollections, if_neg (by simp [hl']), if_pos hc]
      refine ⟨rfl, rfl, by simp [pushEvent, initSt, Event.isDestWrite],
        by simp [pushEvent, initSt, Event.isFileTouch],
        by simp [pushEvent, initSt, Event.isSourceCount], fun _ hcf => ?_⟩
      simp only [Bool.and_eq_true, Bool.not_eq_true'] at hc
      rcases hcf with h | h
      · rw [h] at hc
        exact Bool.noConfusion hc.1
      · rw [h] at hc
        exact Bool.noConfusion hc.2
    · have heq : copyCollections env svc (initSt env)
          = (.completed,
             { dest := env.dest0, files := env.files0, outDirExists := env.outDirExists0,
               trace := Event.listCols
                 :: ((listCollectionsResolve svc.collections env.srcNames).map Event.dryRunLog
                     ++ [Event.close]) }) := by
        rw [copyCollections, if_neg (by simp [hl']), if_neg hc,
          runPlan_dryRun env svc hdry]
        simp [pushEvent, initSt]
      refine ⟨by rw [heq], by rw [heq], ?_, ?_, ?_, fun _ _ => heq⟩
      all_goals
        rw [heq, List.countP_eq_zero]
        intro e he
        simp only [List.mem_cons, List.mem_append, List.mem_singleton, List.mem_map] at he
        rcases he with he | ⟨c, _, he⟩ | (he | he)
        · subst he
          simp [Event.isDestWrite, Event.isFileTouch, Event.isSourceCount]
        · rw [← he]
          simp [Event.isDestWrite, Event.isFileTouch, Event.isSourceCount]
        · subst he
          simp [Event.isDestWrite, Event.isFileTouch, Event.isSourceCount]
        · exact absurd he (List.not_mem_nil e)

/-- Witness for C5: a dry-run over the one-collection store performs no
destination write, file operation or source read. -/
theorem C5_dryRun_is_log_only_witness :
    svcDry.dryRun = true ∧
    ((copyCollections envBase svcDry (initSt envBase)).2).dest = envBase.dest0 ∧
    ((copyCollections envBase svcDry (initSt envBase)).2).trace.countP
      Event.isDestWrite = 0 ∧
    ((copyCollections envBase svcDry (initSt envBase)).2).trace.countP
      Event.isFileTouch = 0 ∧
    ((copyCollections envBase svcDry (initSt envBase)).2).trace.countP
      Event.isSourceCount = 0 :=
  ⟨rfl, (C5_dryRun_is_log_only envBase svcDry rfl).1,
   (C5_dryRun_is_log_only envBase svcDry rfl).2.2.1,
   (C5_dryRun_is_log_only envBase svcDry rfl).2.2.2.1,
   (C5_dryRun_is_log_only envBase svcDry rfl).2.2.2.2.1⟩

/-- Claim C9: in import mode the import is driven by the source collection's
cursor: an empty source collection produces zero batches, so the import sink
is never invoked and nothing is inserted into the destination, even when
`{outputDir}/{name}.json` exists and parses as a non-empty array. -/
theorem C9_import_driven_by_source_cursor (env : Env) (svc : MongoCopyService)
    (name : String) (st : St) (content : String) (A : List Doc)
    (himp : svc.importJson = true) (hexp : svc.exportJson = false)
    (hempty : env.srcDocs name = [])
    (hcount : env.countFail name = false)
    (hfile : alGet st.files name = some content)
    (hparse : jsonParse content = some (Json.arr A)) (hA : A ≠ []) :
    copyCollection env svc name st
      = (.ok (), { st with trace := st.trace ++ [Event.countDocs name] }) ∧
    ((copyCollection env svc name st).2).dest = st.dest ∧
    ((copyCollection env svc name st).2).trace.countP Event.isReadFile
      = st.trace.countP Event.isReadFile ∧
    ((copyCollection env svc name st).2).trace.countP Event.isDestWrite
      = st.trace.countP Event.isDestWrite := by
  have h1 : copyCollection env svc name st
      = (.ok (), { st with trace := st.trace ++ [Event.countDocs name] }) := by
    rw [copyCollection, if_neg (by simp [hcount]), hempty]
    rfl
  refine ⟨h1, ?_, ?_, ?_⟩ <;> rw [h1] <;>
    simp [List.countP_append, Event.isReadFile, Event.isDestWrite]

/-- Witness for C9: with `users` empty in the source but `users.json`
present and parsing as `[5]`, an import run inserts nothing and reads no
file. -/
theorem C9_import_driven_by_source_cursor_witness :
    copyCollection envC9 svcImp "users" (initSt envC9)
      = (.ok (), { initSt envC9 with trace := [Event.countDocs "users"] }) ∧
    ((copyCollection envC9 svcImp "users" (initSt envC9)).2).trace.countP
      Event.isDestWrite = 0 := by
  have h := C9_import_driven_by_source_cursor envC9 svcImp "users" (initSt envC9)
    "[5]" [Json.num 5] rfl rfl rfl rfl rfl rfl (by simp)
  exact ⟨h.1, h.2.2.2⟩

/-- The import loop's trace contribution contains one file read per batch. -/
theorem countP_isReadFile_join_replicate (name : String) (A : List Doc) (k : Nat) :
    ((List.replicate k [Event.readFile name, Event.insertMany name A]).join).countP
      Event.isReadFile = k := by
  induction k with
  | zero => rfl
  | succ k ih =>
      simp only [List.replicate_succ, List.join_cons, List.countP_append, ih,
        List.countP_cons]
      simp [Event.isReadFile]
      omega

/-- Claim C7: in import mode the import sink is invoked once per
source-cursor batch, so when the source collection yields k batches the
entire contents of `{outputDir}/{name}.json` are parsed and inserted into
the destination collection k times, multiplying the imported documents by
the batch count. -/
theorem C7_import_multiplies_by_batch_count (env : Env) (svc : MongoCopyService)
    (name : String) (st : St) (content : String) (A : List Doc) (k : Nat)
    (himp : svc.importJson = true) (hexp : svc.exportJson = false)
    (hcount : env.countFail name = false)
    (hcur : ∀ i, env.cursorFail name i = false)
    (hread : ∀ i, env.readFail name i = false)
    (hins : ∀ i, env.insertFail name i = false)
    (hfile : alGet st.files name = some content)
    (hparse : jsonParse content = some (Json.arr A))
    (hk : k = (readBatches svc.batchSize.toNat (env.srcDocs name)).length) :
    ∃ st', copyCollection env svc name st = (.ok (), st') ∧
      (alGet st'.dest name).getD []
        = (alGet st.dest name).getD [] ++ (List.replicate k A).join ∧
      st'.files = st.files ∧
      st'.trace = st.trace ++ [Event.countDocs name]
        ++ (List.replicate k [Event.readFile name, Event.insertMany name A]).join ∧
      st'.trace.countP Event.isReadFile = st.trace.countP Event.isReadFile + k := by
  obtain ⟨st', hrun, hdest, hfiles, htrace⟩ :=
    procBatches_import env svc name himp hexp content A hparse hcur hread hins
      (readBatches svc.batchSize.toNat (env.srcDocs name)) 0 0
      (pushEvent (Event.countDocs name) st) (by simpa [pushEvent] using hfile)
  refine ⟨st', ?_, ?_, by simpa [pushEvent] using hfiles, ?_, ?_⟩
  · rw [copyCollection, if_neg (by simp [hcount])]
    exact hrun
  · rw [hdest, hk]
    simp [pushEvent]
  · rw [htrace, hk]
    simp [pushEvent]
  · rw [htrace, hk]
    simp only [pushEvent, List.countP_append, countP_isReadFile_join_replicate]
    simp [Event.isReadFile]

/-- Witness for C7: `users` has two documents and batch size 1, so two
batches; `users.json` parses as `[5]`, and the run inserts it twice — the
destination ends with `[5, 5]`. -/
theorem C7_import_multiplies_by_batch_count_witness :
    ∃ st', copyCollection envC7 svcImp "users" (initSt envC7) = (.ok (), st') ∧
      (alGet st'.dest "users").getD []
        = (alGet (initSt envC7).dest "users").getD []
            ++ (List.replicate 2 [Json.num 5]).join ∧
      st'.files = (initSt envC7).files ∧
      st'.trace = (initSt envC7).trace ++ [Event.countDocs "users"]
        ++ (List.replicate 2 [Event.readFile "users",
              Event.insertMany "users" [Json.num 5]]).join ∧
      st'.trace.countP Event.isReadFile
        = (initSt envC7).trace.countP Event.isReadFile + 2 :=
  C7_import_multiplies_by_batch_count envC7 svcImp "users" (initSt envC7) "[5]"
    [Json.num 5] 2 rfl rfl rfl (fun _ => rfl) (fun _ => rfl) (fun _ => rfl) rfl rfl rfl

theorem readBatchesF_nil_fuel (b n : Nat) : readBatchesF b n [] = [] := by
  cases n <;> rfl

theorem readBatches_single (b : Nat) (docs : List Doc) (h1 : docs ≠ [])
    (h2 : docs.length ≤ b) : readBatches b docs = [docs] := by
  cases docs with
  | nil => exact absurd rfl h1
  | cons d ds =>
      have ht : (d :: ds).take b = d :: ds := List.take_of_length_le h2
      have hd : (d :: ds).drop b = [] := List.drop_eq_nil_of_le h2
      rw [readBatches, List.length_cons]
      show ((d :: ds).take b) :: readBatchesF b ds.length ((d :: ds).drop b) = [d :: ds]
      rw [ht, hd, readBatchesF_nil_fuel]

theorem list_two_le_decomp {α : Type} {l : List α} (h : 2 ≤ l.length) :
    ∃ x y t, l = x :: y :: t := by
  cases l with
  | nil => simp at h
  | cons x t1 =>
      cases t1 with
      | nil => simp at h
      | cons y t => exact ⟨x, y, t, rfl⟩

theorem stringJoin_nil : String.join ([] : List String) = "" := rfl

/-- Counterexample to claim C8 as stated: in export mode, a collection whose
document count (here 0) is at most the batch size does not always produce
exactly one written file — an empty collection yields zero batches, so the
run completes without any append and `users.json` is never created. -/
theorem C8_export_counterexample :
    svcExp.exportJson = true ∧
    (envBase.srcDocs "users").length ≤ svcExp.batchSize.toNat ∧
    copyCollection envBase svcExp "users" (initSt envBase)
      = (.ok (), pushEvent (Event.countDocs "users") (initSt envBase)) ∧
    alGet ((pushEvent (Event.countDocs "users") (initSt envBase)).files) "users" = none ∧
    (pushEvent (Event.countDocs "users") (initSt envBase)).trace.countP
      Event.isAppendFile = 0 :=
  ⟨rfl, by decide, rfl, rfl, rfl⟩

/-- Claim C8 (amended): in export mode, for a collection holding between 1
and batchSize documents, exactly one append creates `{name}.json`, whose
content is the JSON serialization of the batch and parses back to exactly
the source documents; while a collection split across more than one batch
gets at least two appends and a file whose content is not valid
single-document JSON (its parse fails). -/
theorem C8_export_single_vs_multi_batch (env : Env) (svc : MongoCopyService)
    (name : String) (st : St)
    (hexp : svc.exportJson = true)
    (hcount : env.countFail name = false)
    (hcur : ∀ i, env.cursorFail name i = false)
    (happ : ∀ i, env.appendFail name i = false)
    (hfresh : alGet st.files name = none) :
    (0 < (env.srcDocs name).length →
      (env.srcDocs name).length ≤ svc.batchSize.toNat →
      ∃ st', copyCollection env svc name st = (.ok (), st') ∧
        alGet st'.files name = some (jsonStringify2 (Json.arr (env.srcDocs name))) ∧
        jsonParse (jsonStringify2 (Json.arr (env.srcDocs name)))
          = some (Json.arr (env.srcDocs name)) ∧
        st'.trace.countP Event.isAppendFile
          = st.trace.countP Event.isAppendFile + 1 ∧
        (∀ k', k' ≠ name → alGet st'.files k' = alGet st.files k')) ∧
    (0 < svc.batchSize.toNat →
      svc.batchSize.toNat < (env.srcDocs name).length →
      ∃ st' content, copyCollection env svc name st = (.ok (), st') ∧
        alGet st'.files name = some content ∧
        jsonParse content = none ∧
        st.trace.countP Event.isAppendFile + 2
          ≤ st'.trace.countP Event.isAppendFile) := by
  have hget0 : alGet (pushEvent (Event.countDocs name) st).files name = none := hfresh
  constructor
  · intro hpos hle
    have hsingle : readBatches svc.batchSize.toNat (env.srcDocs name)
        = [env.srcDocs name] :=
      readBatches_single _ _ (List.ne_nil_of_length_pos hpos) hle
    obtain ⟨st', hrun, hget, hdest, hcnt, hoth, hkeep, hmk⟩ :=
      procBatches_export env svc name hexp hcur happ
        (readBatches svc.batchSize.toNat (env.srcDocs name)) 0 0
        (pushEvent (Event.countDocs name) st)
    obtain ⟨s, hs⟩ := hmk (by rw [hsingle]; simp)
    have hs_eq : s = jsonStringify2 (Json.arr (env.srcDocs name)) := by
      rw [hs, hget0, hsingle] at hget
      simpa [stringJoin_cons, stringJoin_nil, String.append_empty,
        String.empty_append] using hget
    refine ⟨st', ?_, by rw [hs, hs_eq], jsonParse_stringify2 _, ?_, ?_⟩
    · rw [copyCollection, if_neg (by simp [hcount])]
      exact hrun
    · rw [hcnt, hsingle]
      simp [pushEvent, List.countP_append, Event.isAppendFile]
    · intro k' hk'
      exact hoth k' hk'
  · intro hb hlt
    have hspec := readBatches_spec svc.batchSize.toNat hb (env.srcDocs name)
    have hlen2 : 2 ≤ (readBatches svc.batchSize.toNat (env.srcDocs name)).length := by
      rw [hspec.1]
      exact (Nat.le_div_iff_mul_le hb).mpr (by omega)
    obtain ⟨b1, b2, rest, hbs⟩ := list_two_le_decomp hlen2
    obtain ⟨st', hrun, hget, hdest, hcnt, hoth, hkeep, hmk⟩ :=
      procBatches_export env svc name hexp hcur happ
        (readBatches svc.batchSize.toNat (env.srcDocs name)) 0 0
        (pushEvent (Event.countDocs name) st)
    obtain ⟨content, hs⟩ := hmk (by rw [hbs]; simp)
    have hcontent : content = jsonStringify2 (Json.arr b1)
        ++ (jsonStringify2 (Json.arr b2)
          ++ String.join (rest.map (fun batch => jsonStringify2 (Json.arr batch)))) := by
      rw [hs, hget0, hbs] at hget
      simpa [stringJoin_cons, String.empty_append] using hget
    obtain ⟨t, ht⟩ := renderV_arr_head 0 b2
    have hdata : content.data
        = renderV 0 (Json.arr b1)
          ++ ('[' :: (t ++ (String.join
              (rest.map (fun batch => jsonStringify2 (Json.arr batch)))).data)) := by
      rw [hcontent, String.data_append, String.data_append]
      have h1 : (jsonStringify2 (Json.arr b1)).data = renderV 0 (Json.arr b1) := rfl
      have h2 : (jsonStringify2 (Json.arr b2)).data = renderV 0 (Json.arr b2) := rfl
      rw [h1, h2, ht]
      simp [List.cons_append, List.append_assoc]
    have hcast : content = String.mk (renderV 0 (Json.arr b1)
        ++ ('[' :: (t ++ (String.join
            (rest.map (fun batch => jsonStringify2 (Json.arr batch)))).data))) :=
      congrArg String.mk hdata
    refine ⟨st', content, ?_, hs, ?_, ?_⟩
    · rw [copyCollection, if_neg (by simp [hcount])]
      exact hrun
    · rw [hcast]
      exact jsonParse_render_trailing_none (Json.arr b1) '[' _ (by decide) (by decide)
    · have h0 : (pushEvent (Event.countDocs name) st).trace.countP Event.isAppendFile
          = st.trace.countP Event.isAppendFile := by
        simp [pushEvent, List.countP_append, Event.isAppendFile]
      rw [hcnt, h0]
      omega

/-- Witness for C8: with one document and batch size 1000 the run writes
`users.json` once and its content parses back to the source array; with two
documents and batch size 1 the run appends twice and the resulting file
content is not parseable JSON. -/
theorem C8_export_single_vs_multi_batch_witness :
    (∃ st', copyCollection envC8a svcExp "users" (initSt envC8a) = (.ok (), st') ∧
        alGet st'.files "users"
          = some (jsonStringify2 (Json.arr (envC8a.srcDocs "users"))) ∧
        jsonParse (jsonStringify2 (Json.arr (envC8a.srcDocs "users")))
          = some (Json.arr (envC8a.srcDocs "users")) ∧
        st'.trace.countP Event.isAppendFile
          = (initSt envC8a).trace.countP Event.isAppendFile + 1 ∧
        (∀ k', k' ≠ "users" →
          alGet st'.files k' = alGet (initSt envC8a).files k')) ∧
    (∃ st' content, copyCollection envC8b svcExp1 "users" (initSt envC8b)
        = (.ok (), st') ∧
        alGet st'.files "users" = some content ∧
        jsonParse content = none ∧
        (initSt envC8b).trace.countP Event.isAppendFile + 2
          ≤ st'.trace.countP Event.isAppendFile) := by
  constructor
  · exact (C8_export_single_vs_multi_batch envC8a svcExp "users" (initSt envC8a)
      rfl rfl (fun _ => rfl) (fun _ => rfl) rfl).1 (by decide) (by decide)
  · exact (C8_export_single_vs_multi_batch envC8b svcExp1 "users" (initSt envC8b)
      rfl rfl (fun _ => rfl) (fun _ => rfl) rfl).2 (by decide) (by decide)

theorem isClose_eq_false_of_colName {e : Event} {n : String}
    (h : Event.colName e = some n) : Event.isClose e = false := by
  cases e <;> simp_all [Event.colName, Event.isClose]

theorem touches_eq_false_of_colName {e : Event} {n c : String}
    (h : Event.colName e = some n) (hne : n ≠ c) : Event.touches c e = false := by
  rw [Event.touches, h]
  simp [hne]

/-- Claim C1 (refuted — code bug): connection cleanup is NOT reached on
every exit path.  `listCollections()` and the confirmation prompt run
before the `try`/`finally` block of `copyCollections`, so the
enumeration-failure path and the declined-prompt path both end the run with
zero `closeClients()` calls; cleanup does run exactly once on the completed
path and on the streaming-failure path. -/
theorem C1_cleanup_not_on_every_path :
    (copyCollections { envBase with listFail := true } svcYes
        (initSt { envBase with listFail := true })).1 = RunResult.threw .listErr ∧
    ((copyCollections { envBase with listFail := true } svcYes
        (initSt { envBase with listFail := true })).2).trace.countP
      Event.isClose = 0 ∧
    (copyCollections { envBase with confirmAnswer := false } svcNoYes
        (initSt { envBase with confirmAnswer := false })).1 = RunResult.cancelled ∧
    ((copyCollections { envBase with confirmAnswer := false } svcNoYes
        (initSt { envBase with confirmAnswer := false })).2).trace.countP
      Event.isClose = 0 ∧
    (copyCollections envC2 svcYes (initSt envC2)).1
      = RunResult.failedRun .insertErr ∧
    ((copyCollections envC2 svcYes (initSt envC2)).2).trace.countP
      Event.isClose = 1 ∧
    (copyCollections envBase svcYes (initSt envBase)).1 = RunResult.completed ∧
    ((copyCollections envBase svcYes (initSt envBase)).2).trace.countP
      Event.isClose = 1 :=
  ⟨rfl, rfl, rfl, rfl, rfl, rfl, rfl, rfl⟩

/-- Claim C2: an error raised while streaming collection k of the plan is
not retried and not caught per-collection: the loop stops at once, the job
run ends as `failedRun` with that error after exactly one cleanup event
(none occurred before it), and no collection of positions k+1..n of the
plan is ever touched. -/
theorem C2_streaming_error_aborts_job (env : Env) (svc : MongoCopyService)
    (plan : List String) (k : Nat) (hk : k < plan.length)
    (e : CopyErr) (stk stE : St)
    (hplan : plan = listCollectionsResolve svc.collections env.srcNames)
    (hlist : env.listFail = false)
    (hyes : svc.yes = true ∨ env.confirmAnswer = true)
    (hdry : svc.dryRun = false)
    (hrun : runPlan env svc (plan.take k)
        (pushEvent Event.listCols (initSt env)) = (.ok (), stk))
    (herr : copyCollection env svc (plan.get ⟨k, hk⟩) stk = (.error e, stE)) :
    copyCollections env svc (initSt env)
      = (.failedRun e, { stE with trace := stE.trace ++ [Event.close] }) ∧
    stE.trace.countP Event.isClose = 0 ∧
    (∀ c, c ∈ plan.drop (k + 1) → c ∉ plan.take (k + 1) →
      (stE.trace ++ [Event.close]).countP (Event.touches c) = 0) := by
  have hstE : stE = (copyCollection env svc (plan.get ⟨k, hk⟩) stk).2 := by
    rw [herr]
  have hstk : stk
      = (runPlan env svc (plan.take k) (pushEvent Event.listCols (initSt env))).2 := by
    rw [hrun]
  have hsplit : plan = plan.take k ++ (plan.get ⟨k, hk⟩ :: plan.drop (k + 1)) := by
    conv_lhs => rw [← List.take_append_drop k plan]
    congr 1
    rw [List.get_eq_getElem]
    exact (List.getElem_cons_drop plan k hk).symm
  have hmain : runPlan env svc plan (pushEvent Event.listCols (initSt env))
      = (.error e, stE) := by
    conv_lhs => rw [hsplit]
    rw [runPlan_append, hrun]
    show runPlan env svc (plan.get ⟨k, hk⟩ :: plan.drop (k + 1)) stk = (.error e, stE)
    rw [runPlan, if_neg (by simp [hdry]), herr]
  refine ⟨?_, ?_, ?_⟩
  · rw [copyCollections, if_neg (by simp [hlist]),
      if_neg (by rcases hyes with h | h <;> simp [h]), ← hplan, hmain]
    rfl
  · rw [List.countP_eq_zero]
    intro ev hev
    rw [hstE] at hev
    rcases copyCollection_trace_mem env svc _ stk ev hev with h | h | h
    · rw [hstk] at h
      rcases runPlan_trace_mem env svc _ _ ev h with h2 | ⟨n, _, h2⟩ | h2
      · simp only [pushEvent, initSt, List.nil_append, List.mem_singleton] at h2
        subst h2
        simp [Event.isClose]
      · simp [isClose_eq_false_of_colName h2]
      · subst h2
        simp [Event.isClose]
    · simp [isClose_eq_false_of_colName h]
    · subst h
      simp [Event.isClose]
  · intro c hcdrop hctake
    have hgetmem : plan.get ⟨k, hk⟩ ∈ plan.take (k + 1) := by
      rw [List.take_succ, List.get_eq_getElem]
      refine List.mem_append_right _ ?_
      rw [List.getElem?_eq_getElem hk]
      simp [Option.toList]
    have htakemem : ∀ n, n ∈ plan.take k → n ∈ plan.take (k + 1) := by
      intro n hn
      rw [List.take_succ]
      exact List.mem_append_left _ hn
    rw [List.countP_eq_zero]
    intro ev hev
    rw [List.mem_append, List.mem_singleton] at hev
    rcases hev with hev | hev
    · rw [hstE] at hev
      rcases copyCollection_trace_mem env svc _ stk ev hev with h | h | h
      · rw [hstk] at h
        rcases runPlan_trace_mem env svc _ _ ev h with h2 | ⟨n, hn, h2⟩ | h2
        · simp only [pushEvent, initSt, List.nil_append, List.mem_singleton] at h2
          subst h2
          simp [Event.touches, Event.colName]
        · have hne : n ≠ c := by
            intro hEq
            rw [← hEq] at hctake
            exact hctake (htakemem n hn)
          simp [touches_eq_false_of_colName h2 hne]
        · subst h2
          simp [Event.touches, Event.colName]
      · have hne : plan.get ⟨k, hk⟩ ≠ c := by
          intro hEq
          rw [← hEq] at hctake
          exact hctake hgetmem
        simp [touches_eq_false_of_colName h hne]
      · subst h
        simp [Event.touches, Event.colName]
    · subst hev
      simp [Event.touches, Event.colName]

/-- Witness for C2: with collections `a` and `b` where every insert into `a`
throws, the run fails at position 0 with `insertErr`, collection `b` is
never touched, and exactly the one final cleanup event appears. -/
theorem C2_streaming_error_aborts_job_witness :
    copyCollections envC2 svcYes (initSt envC2)
      = (.failedRun .insertErr,
         { dest := [], files := [], outDirExists := true,
           trace := [Event.listCols, Event.countDocs "a", Event.close] }) ∧
    ([Event.listCols, Event.countDocs "a"] : List Event).countP Event.isClose = 0 ∧
    (∀ c, c ∈ (["a", "b"] : List String).drop 1 →
      c ∉ (["a", "b"] : List String).take 1 →
      (([Event.listCols, Event.countDocs "a"] : List Event)
          ++ [Event.close]).countP (Event.touches c) = 0) := by
  have h := C2_streaming_error_aborts_job envC2 svcYes ["a", "b"] 0 (by decide)
    .insertErr
    { dest := [], files := [], outDirExists := true, trace := [Event.listCols] }
    { dest := [], files := [], outDirExists := true,
      trace := [Event.listCols, Event.countDocs "a"] }
    rfl rfl (Or.inl rfl) rfl rfl rfl
  exact ⟨h.1, h.2.1, h.2.2⟩
